import Mathlib

/-!
# Verification of the MRTS-bot keyword-search core

A shallow embedding, in Lean 4, of the pure core of the MRTS-bot repository:
the text normalizer `norm`, the query tokenizer `tokenize`, the FTS query
builder `build_fts_query`, the table-text parsing cascade `parse_table_text`,
the SQLite-backed search functions `search_clauses` / `search_tables`
(SQLite FTS5 matching modelled over an explicit database value, with the
executed SQL statements recorded as a trace), the preview renderer
`render_table_value_text` (all from `app.py`), and the chunker `chunk_text`
and index writer `build_faiss` (from `rag/build_index.py`).

Python string/regex behaviour is modelled on `List Char` / `String`:
`re.sub` with the two patterns used by `norm` is implemented as a
left-to-right leftmost-match scan, and `str.strip` / the regex class `\s`
use the Python whitespace character set. `str.lower()` is modelled as an
ASCII case map (the only characters the downstream regexes accept are
ASCII, so non-ASCII case folding cannot influence any modelled result).
Calls into pandas / the csv module are kept abstract as oracle functions
returning `Except`, so that theorems quantify over every possible library
behaviour, including raised exceptions.
-/

namespace MrtsBot

set_option maxHeartbeats 1600000

/-- The characters Python treats as whitespace, both for `str.strip()` and
for the regex class `\s` on `str` patterns (ASCII whitespace, the C1 and
Unicode space separators and the line and paragraph separators). -/
def pySpaceCodes : List Nat :=
  [9, 10, 11, 12, 13, 28, 29, 30, 31, 32, 133, 160, 5760,
   8192, 8193, 8194, 8195, 8196, 8197, 8198, 8199, 8200, 8201, 8202,
   8232, 8233, 8239, 8287, 12288]

/-- `c` is a Python whitespace character. -/
def isPySpace (c : Char) : Bool := pySpaceCodes.contains c.toNat

/-- `c` is a space or a tab (the regex class `[ \t]`). -/
def isSpaceTab (c : Char) : Bool := c = ' ' || c = '\t'

/-- Step 1 of `norm` in `app.py`: `s.replace("\r", " ")`. -/
def subCR (l : List Char) : List Char :=
  l.map (fun c => if c = '\r' then ' ' else c)

/-- Scanner for `re.sub(r"[ \t]+", " ", s)`: `inRun` records whether the
previous character belonged to a space/tab run (whose single replacement
space has already been emitted). -/
def stScan : List Char → Bool → List Char
  | [], _ => []
  | c :: rest, inRun =>
    if isSpaceTab c then
      if inRun then stScan rest true else ' ' :: stScan rest true
    else c :: stScan rest false

/-- Step 2 of `norm` in `app.py`: `re.sub(r"[ \t]+", " ", s)` — every maximal
run of spaces and tabs becomes a single space. -/
def collapseSpaceTab (l : List Char) : List Char := stScan l false

/-- Scanner for `re.sub(r"\n\s*\n+", "\n\n", s)`. A leftmost match starts
at a newline whose following whitespace run contains a further newline; the
greedy `\s*` together with `\n+` make the match end exactly at the last
newline of that run, and the match is replaced by two newlines. The state
is `none` outside a match candidate, and `some (two, buf)` right after a
newline, where `two` records whether a second newline has been seen in the
current whitespace run and `buf` holds (reversed) the non-newline
whitespace seen since the last newline — emitted after the run ends,
dropped whenever a later newline extends the match. -/
def cbScan : List Char → Option (Bool × List Char) → List Char
  | [], none => []
  | [], some (two, buf) => (if two then ['\n', '\n'] else ['\n']) ++ buf.reverse
  | c :: rest, none =>
    if c = '\n' then cbScan rest (some (false, []))
    else c :: cbScan rest none
  | c :: rest, some (two, buf) =>
    if c = '\n' then cbScan rest (some (true, []))
    else if isPySpace c then cbScan rest (some (two, c :: buf))
    else (if two then ['\n', '\n'] else ['\n']) ++ buf.reverse ++ c :: cbScan rest none

/-- Step 3 of `norm` in `app.py`: `re.sub(r"\n\s*\n+", "\n\n", s)`. -/
def collapseBlank (l : List Char) : List Char := cbScan l none

/-- No two adjacent space/tab characters (fixed-point condition of the
`[ \t]+` collapse). -/
def spaceRunOk (a b : Char) : Prop :=
  ¬(isSpaceTab a = true ∧ isSpaceTab b = true)

/-- The leading whitespace run of `l` contains no newline. -/
def noNlInRun (l : List Char) : Bool :=
  !(l.takeWhile isPySpace).contains '\n'

/-- Fixed-point condition of the blank-line collapse: every newline is
followed either by no further newline in its whitespace run, or by one
immediately adjacent newline whose own run then contains no newline. -/
def cbNormal : List Char → Bool
  | [] => true
  | c :: rest =>
    (if c = '\n' then
      (if rest.head? = some '\n' then noNlInRun rest.tail else noNlInRun rest)
     else true) && cbNormal rest

/-- `str.strip()` from the right end only (Python `rstrip`). -/
def dropEndSpace (l : List Char) : List Char :=
  (l.reverse.dropWhile isPySpace).reverse

/-- Python `str.strip()`: remove whitespace at both ends. -/
def pyStrip (l : List Char) : List Char :=
  dropEndSpace (l.dropWhile isPySpace)

/-- The whole `norm` pipeline of `app.py` on character lists. -/
def normChars (l : List Char) : List Char :=
  pyStrip (collapseBlank (collapseSpaceTab (subCR l)))

/-- `norm` from `app.py` on strings. -/
def norm (s : String) : String := ⟨normChars s.data⟩

/-- `norm` as called on a possibly-`None` value: `s = "" if s is None else
str(s)` happens before the pipeline. -/
def normOpt (s : Option String) : String := norm (s.getD "")

/-! ## The query tokenizer `tokenize` -/

/-- A character matched by the regex class `[a-z0-9]`. -/
def isLowerAlnum (c : Char) : Bool :=
  ('a' ≤ c && c ≤ 'z') || ('0' ≤ c && c ≤ '9')

/-- Left-to-right scan implementing
`re.findall(r"[a-z0-9]+(?:\.[a-z0-9]+)*", q)`: maximal runs of `[a-z0-9]`,
with a dot joining two runs only when it is immediately surrounded by
matching characters. `acc` holds the (reversed) token being built. -/
def scanTokens : List Char → List Char → List (List Char)
  | [], acc => if acc.isEmpty then [] else [acc.reverse]
  | '.' :: r :: rs, a :: as_ =>
    if isLowerAlnum r then scanTokens rs (r :: '.' :: a :: as_)
    else (a :: as_).reverse :: scanTokens (r :: rs) []
  | c :: rest, acc =>
    if isLowerAlnum c then scanTokens rest (c :: acc)
    else if acc.isEmpty then scanTokens rest []
    else acc.reverse :: scanTokens rest []

/-- The `STOPWORDS` set of `app.py`. -/
def STOPWORDS : List String :=
  ["what", "how", "when", "where", "why", "who",
   "is", "are", "was", "were", "do", "does", "did",
   "the", "a", "an", "and", "or", "to", "for", "of", "in", "on", "at", "by",
   "between", "into", "within", "from", "as", "it", "this", "that", "these", "those",
   "show", "tell", "give", "please", "required", "requirement", "requirements",
   "min", "minimum", "max", "maximum"]

/-- The raw regex matches of `tokenize`: the query is normalized, lowercased
(`.lower()`, modelled as the ASCII case map), and scanned. -/
def rawTokens (q : String) : List String :=
  (scanTokens ((norm q).data.map Char.toLower) []).map (fun cs => (⟨cs⟩ : String))

/-- The source filter `t not in STOPWORDS and len(t) >= 2`. -/
def keepToken (t : String) : Bool :=
  !STOPWORDS.contains t && decide (2 ≤ t.length)

/-- The de-duplication loop of `tokenize` (`out`, `seen`), keeping the first
occurrence of each token. -/
def dedupAux : List String → List String → List String
  | [], _ => []
  | t :: ts, seen =>
    if seen.contains t then dedupAux ts seen
    else t :: dedupAux ts (t :: seen)

/-- `tokenize` from `app.py`. -/
def tokenize (q : String) : List String :=
  dedupAux ((rawTokens q).filter keepToken) []

/-- Claim-side reference: the canonical "keep the first occurrence of each
element, in order" function, used to state what the source's seen-set loop
computes. -/
def dedupSpec : List String → List String
  | [] => []
  | t :: ts => t :: dedupSpec (ts.filter (fun x => x ≠ t))
termination_by l => l.length
decreasing_by
· exact Nat.lt_succ_of_le ((List.filter_sublist ts).length_le)

/-- No two adjacent characters of `cs` are both dots. -/
def noTwoDots : List Char → Bool
  | [] => true
  | [_] => true
  | a :: b :: rest => !(a = '.' && b = '.') && noTwoDots (b :: rest)

/-- The last character exists and is a lowercase alphanumeric. -/
def lastAlnum (cs : List Char) : Bool :=
  match cs.getLast? with
  | some z => isLowerAlnum z
  | none => false

/-- Claim-side shape of a regex match of `[a-z0-9]+(?:\.[a-z0-9]+)*`:
nonempty, every character a lowercase-alphanumeric or a dot, first and last
characters alphanumeric, and no two adjacent dots. -/
def dottedShape (cs : List Char) : Bool :=
  match cs with
  | [] => false
  | c :: rest =>
    isLowerAlnum c &&
    (c :: rest).all (fun x => isLowerAlnum x || x = '.') &&
    lastAlnum (c :: rest) &&
    noTwoDots (c :: rest)

/-! ## `build_fts_query` -/

/-- `t.replace(chr(34), "")`: delete every double-quote character (the
pattern is a single character, so replacement is character filtering). -/
def stripQuotes (t : String) : String := ⟨t.data.filter (fun c => c != '"')⟩

/-- `build_fts_query` from `app.py`: each token is wrapped in double quotes
(with embedded double quotes deleted) and the quoted tokens are joined with
`" AND "` or `" OR "`. -/
def build_fts_query (tokens : List String) (require_all : Bool) : String :=
  if tokens.isEmpty then ""
  else
    let joiner := if require_all then " AND " else " OR "
    let safe := tokens.map (fun t => "\"" ++ stripQuotes t ++ "\"")
    String.intercalate joiner safe

/-! ## SQLite FTS5 matching model

The FTS5 virtual tables `clauses_fts` / `tables_fts` themselves are built by
a script that is not part of the sources here; only `app.py` queries them.
Modelled from the spec: the spec calls them "a hand-rolled SQLite FTS5
table" over the clause/table text, so the model indexes the text-bearing
columns of each row with FTS5's default `unicode61` tokenizer (maximal
alphanumeric runs, case-folded; modelled for ASCII). A quoted string in an
FTS5 MATCH expression is a phrase: its tokens must occur consecutively
within a single indexed column. -/

/-- An ASCII alphanumeric character (the `unicode61` token class, restricted
to ASCII). -/
def isAsciiAlnum (c : Char) : Bool :=
  ('a' ≤ c && c ≤ 'z') || ('A' ≤ c && c ≤ 'Z') || ('0' ≤ c && c ≤ '9')

/-- Maximal alphanumeric runs of a character list (accumulator reversed). -/
def alnumRunsAux : List Char → List Char → List (List Char)
  | [], acc => if acc.isEmpty then [] else [acc.reverse]
  | c :: rest, acc =>
    if isAsciiAlnum c then alnumRunsAux rest (c :: acc)
    else if acc.isEmpty then alnumRunsAux rest []
    else acc.reverse :: alnumRunsAux rest []

/-- The FTS5 `unicode61` tokenizer (ASCII model): case-folded maximal
alphanumeric runs. -/
def ftsTokenize (s : String) : List String :=
  (alnumRunsAux (s.data.map Char.toLower) []).map (fun cs => (⟨cs⟩ : String))

/-- Does `l` start with `pat`? -/
def startsWithSeq [DecidableEq α] : List α → List α → Bool
  | _, [] => true
  | [], _ :: _ => false
  | a :: l, b :: pat => a = b && startsWithSeq l pat

/-- Does `pat` occur as a contiguous run inside `l`? -/
def containsSeq [DecidableEq α] (l pat : List α) : Bool :=
  match l with
  | [] => startsWithSeq [] pat
  | a :: rest => startsWithSeq (a :: rest) pat || containsSeq rest pat

/-- The phrase an FTS5 MATCH makes of one quoted token produced by
`build_fts_query` (quotes were deleted; the quoted text is tokenized, so a
token such as `9.2.1` becomes the phrase `9 2 1`). -/
def ftsPhrase (t : String) : List String := ftsTokenize (stripQuotes t)

/-- A phrase matches a document (a list of indexed columns, each a token
list) when it occurs consecutively in some column. -/
def ftsPhraseHit (cols : List (List String)) (phrase : List String) : Bool :=
  cols.any (fun col => containsSeq col phrase)

/-- Evaluation of the MATCH expression `build_fts_query tokens require_all`:
all phrases must hit under `" AND "`, at least one under `" OR "`. -/
def ftsMatch (cols : List (List String)) (tokens : List String)
    (require_all : Bool) : Bool :=
  if require_all then tokens.all (fun t => ftsPhraseHit cols (ftsPhrase t))
  else tokens.any (fun t => ftsPhraseHit cols (ftsPhrase t))

/-! ## Database model and the search functions -/

/-- A row of the `clauses` base table (`c.mrts, c.revision, c.clause_id,
c.title, c.text, c.page_start, c.page_end`). -/
structure ClauseRow where
  mrts : String
  revision : String
  clause_id : String
  title : String
  text : String
  page_start : Nat
  page_end : Nat
deriving DecidableEq, Repr

/-- A row of the `tables` base table (`t.mrts, t.revision, t.page,
t.table_id, t.caption, t.value_text`). -/
structure TableRow where
  mrts : String
  revision : String
  page : Nat
  table_id : String
  caption : String
  value_text : String
deriving DecidableEq, Repr

/-- The SQLite database: the names listed in `sqlite_master` plus the
contents of the two base tables. -/
structure DB where
  tableNames : List String
  clauses : List ClauseRow
  tables : List TableRow

/-- `has_table` from `app.py` (the `sqlite_master` lookup result). -/
def has_table (db : DB) (name : String) : Bool := db.tableNames.contains name

/-- The SQL statements `app.py` can execute, recorded as a trace. -/
inductive Stmt where
  /-- `SELECT name FROM sqlite_master WHERE type='table' AND name=?` -/
  | masterLookup (table : String)
  /-- The clause search `SELECT ... FROM clauses_fts JOIN clauses ... WHERE
  clauses_fts MATCH ? ORDER BY rank LIMIT ?`. -/
  | clauseSearch (fts_query : String) (mrts_filter : String) (limit : Nat)
  /-- The table search `SELECT ... FROM tables_fts JOIN tables ... WHERE
  tables_fts MATCH ? ORDER BY rank LIMIT ?`. -/
  | tableSearch (fts_query : String) (mrts_filter : String) (limit : Nat)
deriving DecidableEq, Repr

/-- Is a trace entry one of the `sqlite_master` existence checks? -/
def Stmt.isMasterLookup : Stmt → Bool
  | .masterLookup _ => true
  | _ => false

/-- Modelled from the spec: the FTS5 build script being absent, the indexed
columns of `clauses_fts` are taken to be the clause's text-bearing columns
(title and text). -/
def clauseDoc (r : ClauseRow) : List (List String) :=
  [ftsTokenize r.title, ftsTokenize r.text]

/-- Modelled from the spec: the indexed columns of `tables_fts` are taken to
be the table row's text-bearing columns (caption and value text). -/
def tableDoc (r : TableRow) : List (List String) :=
  [ftsTokenize r.caption, ftsTokenize r.value_text]

/-- SQLite's `UPPER` (ASCII-only case map). -/
def sqlUpper (s : String) : String := ⟨s.data.map Char.toUpper⟩

/-- The `UPPER(mrts)=UPPER(?)` filter, applied only when the selector is not
`"All MRTS"`. -/
def mrtsFilterOk (mrts_filter rowMrts : String) : Bool :=
  if mrts_filter = "All MRTS" then true
  else sqlUpper rowMrts = sqlUpper mrts_filter

/-- `search_clauses` from `app.py`, returning the matched rows and the trace
of executed SQL statements. The two `has_table` guards short-circuit; an
empty tokenization returns an empty result before any search SQL is built.
SQLite's bm25 ordering of the matched rows and the `LIMIT` cut are
abstracted by `List.take limit` on the matched set (bm25 itself lives
inside SQLite); theorems that depend on the exact result list assume
`limit` is not the binding constraint. -/
def search_clauses (db : DB) (mrts_filter query : String) (require_all : Bool)
    (limit : Nat) : List ClauseRow × List Stmt :=
  if ¬ has_table db "clauses" then ([], [.masterLookup "clauses"])
  else if ¬ has_table db "clauses_fts" then
    ([], [.masterLookup "clauses", .masterLookup "clauses_fts"])
  else
    let tokens := tokenize query
    if tokens.isEmpty then ([], [.masterLookup "clauses", .masterLookup "clauses_fts"])
    else
      let fts_q := build_fts_query tokens require_all
      let rows := (db.clauses.filter
        (fun r => ftsMatch (clauseDoc r) tokens require_all &&
          mrtsFilterOk mrts_filter r.mrts)).take limit
      (rows, [.masterLookup "clauses", .masterLookup "clauses_fts",
              .clauseSearch fts_q mrts_filter limit])

/-- `search_tables` from `app.py`, same shape as `search_clauses`. -/
def search_tables (db : DB) (mrts_filter query : String) (require_all : Bool)
    (limit : Nat) : List TableRow × List Stmt :=
  if ¬ has_table db "tables" then ([], [.masterLookup "tables"])
  else if ¬ has_table db "tables_fts" then
    ([], [.masterLookup "tables", .masterLookup "tables_fts"])
  else
    let tokens := tokenize query
    if tokens.isEmpty then ([], [.masterLookup "tables", .masterLookup "tables_fts"])
    else
      let fts_q := build_fts_query tokens require_all
      let rows := (db.tables.filter
        (fun r => ftsMatch (tableDoc r) tokens require_all &&
          mrtsFilterOk mrts_filter r.mrts)).take limit
      (rows, [.masterLookup "tables", .masterLookup "tables_fts",
              .tableSearch fts_q mrts_filter limit])

/-- Claim-side predicate for C1: the row's text contains the raw query as a
substring. -/
def textContainsQuery (text query : String) : Bool :=
  containsSeq text.data query.data

/-! ## Table-text parsing (`looks_like_pipe_table`, `parse_pipe_table`,
`parse_table_text`) -/

/-- A parsed table (`pandas.DataFrame` surrogate). -/
structure DF where
  header : List String
  rows : List (List String)
deriving DecidableEq, Repr

/-- `df.empty` in pandas: some axis has length zero. -/
def DF.pdEmpty (df : DF) : Bool := df.rows.isEmpty || df.header.isEmpty

/-- The non-blank lines of `txt.strip().splitlines()`, each right-stripped:
`[l.rstrip() for l in txt.strip().splitlines() if l.strip()]`. Line
splitting is modelled on the newline character. -/
def cleanLines (txt : List Char) : List (List Char) :=
  ((pyStrip txt).splitOn '\n').filterMap
    (fun l => if (pyStrip l).isEmpty then none else some (dropEndSpace l))

/-- One cell of a markdown separator line: `\s*:?-{2,}:?\s*`. -/
def sepCellOk (cell : List Char) : Bool :=
  let c1 := cell.dropWhile isPySpace
  let c2 := match c1 with | ':' :: r => r | _ => c1
  let dashes := c2.takeWhile (fun c => c = '-')
  let c3 := c2.dropWhile (fun c => c = '-')
  let c4 := match c3 with | ':' :: r => r | _ => c3
  decide (2 ≤ dashes.length) && (c4.dropWhile isPySpace).isEmpty

/-- Drop one blank head cell (it stems from an optional outer pipe). -/
def dropBlankHeadCell (cells : List (List Char)) : List (List Char) :=
  match cells with
  | c :: rest => if rest ≠ [] ∧ (c.dropWhile isPySpace) = [] then rest else cells
  | [] => []

/-- The separator-line regex
`^\s*\|?\s*:?-{2,}:?\s*(\|\s*:?-{2,}:?\s*)+\|?\s*$` of `app.py`: after
accounting for one optional leading and one optional trailing pipe, at
least two cells, all of separator shape. -/
def isSepLine (line : List Char) : Bool :=
  let cells := line.splitOn '|'
  let cells1 := dropBlankHeadCell cells
  let cells2 := (dropBlankHeadCell cells1.reverse).reverse
  decide (2 ≤ cells2.length) && cells2.all sepCellOk

/-- `looks_like_pipe_table` from `app.py`. -/
def looks_like_pipe_table (txt : List Char) : Bool :=
  if txt.isEmpty then false
  else
    let lines := cleanLines txt
    if lines.length < 2 then false
    else if (lines.filter (fun l => l.contains '|')).length < 2 then false
    else (List.range' 1 (min lines.length 4 - 1)).any
      (fun i => isSepLine (lines.getD i []))

/-- `split_row` from `parse_pipe_table`: strip the line, remove one leading
and one trailing pipe, split on pipes, strip every cell. -/
def split_row (line : List Char) : List (List Char) :=
  let row := pyStrip line
  let row1 := match row with | '|' :: r => r | _ => row
  let row2 := if row1.getLast? = some '|' then row1.dropLast else row1
  (row2.splitOn '|').map pyStrip

/-- `parse_pipe_table` from `app.py`. After padding/trimming every row to
`maxcols`, the `pd.DataFrame` constructor cannot fail, so the guarding
`try/except` is the success branch. -/
def parse_pipe_table (txt : List Char) : Option DF :=
  let lines := cleanLines txt
  if lines.length < 2 then none
  else
    let sepIdx := (List.range' 1 (min lines.length 4 - 1)).find?
      (fun i => isSepLine (lines.getD i []))
    let dataLines := match sepIdx with
      | none => lines.drop 1
      | some i => lines.drop (i + 1)
    let header := split_row (lines.getD 0 [])
    let rows := (dataLines.filter (fun l => ¬ (pyStrip l).isEmpty)).map split_row
    let maxcols := max header.length ((rows.map List.length).foldr max 0)
    let header2 := (header ++ List.replicate maxcols []).take maxcols
    let rows2 := rows.map (fun r => (r ++ List.replicate maxcols []).take maxcols)
    some { header := header2.map (fun c => (⟨c⟩ : String)),
           rows := rows2.map (fun r => r.map (fun c => (⟨c⟩ : String))) }

/-- The pandas / csv-module calls of `parse_table_text`, abstracted: each
may return a value or raise (`Except.error`). `sniff` models
`csv.Sniffer().sniff(sample)` returning a delimiter. -/
structure PandasOracle where
  read_html : String → Except String (List DF)
  sniff : String → Except String Char
  read_csv : Char → String → Except String DF
  read_fwf : String → Except String DF

/-- `"\n".join(vt.splitlines()[:10])`, the sniffer sample. -/
def sniffSample (vt : List Char) : String :=
  String.intercalate "\n" (((vt.splitOn '\n').take 10).map (fun l => (⟨l⟩ : String)))

/-- Strategy 1 of `parse_table_text`: `pd.read_html`; any raised exception
is caught, and the first parsed table is returned when the list is
nonempty (no emptiness check on the table itself). -/
def parseHtmlStage (O : PandasOracle) (vt : List Char) : Option DF :=
  match O.read_html ⟨vt⟩ with
  | .ok (df :: _) => some df
  | .ok [] => none
  | .error _ => none

/-- Strategy 2: the markdown pipe-table parser, guarded by
`looks_like_pipe_table`, accepted only when the parse is a nonempty table. -/
def parsePipeStage (vt : List Char) : Option DF :=
  if looks_like_pipe_table vt then
    match parse_pipe_table vt with
    | some df => if !df.pdEmpty then some df else none
    | none => none
  else none

/-- Strategy 3: `csv.Sniffer` then `pd.read_csv`. When sniffing raises, the
source's fallback assigns to a field of the immutable built-in `excel`
dialect, which itself raises and is caught by the surrounding `except`, so
a failed sniff always falls through to the next strategy. -/
def parseCsvStage (O : PandasOracle) (vt : List Char) : Option DF :=
  match O.sniff (sniffSample vt) with
  | .ok delim =>
    match O.read_csv delim ⟨vt⟩ with
    | .ok df => if !df.pdEmpty then some df else none
    | .error _ => none
  | .error _ => none

/-- Strategy 4: `pd.read_fwf`, accepted when nonempty. -/
def parseFwfStage (O : PandasOracle) (vt : List Char) : Option DF :=
  match O.read_fwf ⟨vt⟩ with
  | .ok df => if !df.pdEmpty then some df else none
  | .error _ => none

/-- `vt = (value_text or "").strip()`, shared by `parse_table_text` and
`render_table_value_text`. -/
def vtOf (value_text : Option String) : List Char :=
  pyStrip (value_text.getD "").data

/-- `parse_table_text` from `app.py`: strip the input, return `None` when
blank, otherwise try the four strategies in order, each failure falling
through to the next, `None` when all fail. -/
def parse_table_text (O : PandasOracle) (value_text : Option String) : Option DF :=
  let vt := vtOf value_text
  if vt.isEmpty then none
  else
    (parseHtmlStage O vt) <|> (parsePipeStage vt) <|>
      (parseCsvStage O vt) <|> (parseFwfStage O vt)

/-! ## The renderer `render_table_value_text` -/

/-- What `render_table_value_text` shows (Streamlit widgets abstracted; the
raw-text expanders accompanying each branch are determined by the branch
and are not separately recorded). -/
inductive Rendering where
  /-- `st.info(...)`: no table content. -/
  | info
  /-- `st.dataframe(df)`. -/
  | dataframeView (df : DF)
  /-- `st.markdown(vt)`: pipe-table-looking text. -/
  | markdownView (txt : String)
  /-- detailed view: `st.write(vt)` plus raw expander. -/
  | detailedText (txt : String)
  /-- simple view: `st.write(preview)` plus a full-text expander. -/
  | previewText (shown : String) (full : String)
deriving DecidableEq, Repr

/-- The non-DataFrame tail of `render_table_value_text`: markdown for
pipe-table-looking text, the full text in the detailed view, and otherwise
the preview `vt[:600] + ("…" if len(vt) > 600 else "")` with the full text
behind an expander. -/
def renderTextTail (vt : List Char) (detailed : Bool) : Rendering :=
  if looks_like_pipe_table vt then .markdownView ⟨vt⟩
  else if detailed then .detailedText ⟨vt⟩
  else
    .previewText ((⟨vt.take 600⟩ : String) ++ (if 600 < vt.length then "…" else ""))
      ⟨vt⟩

/-- `render_table_value_text` from `app.py`. -/
def render_table_value_text (O : PandasOracle) (value_text : Option String)
    (detailed : Bool) : Rendering :=
  let vt := vtOf value_text
  if vt.isEmpty then .info
  else
    match parse_table_text O (some ⟨vt⟩) with
    | some df =>
      if !df.pdEmpty then .dataframeView df
      else renderTextTail vt detailed
    | none => renderTextTail vt detailed

/-! ## `chunk_text` from `rag/build_index.py` (fuelled loop) -/

/-- The `while start < len(text)` loop of `chunk_text`, with explicit fuel;
`none` means the fuel ran out (the loop would still be running). -/
def chunkTextLoop : Nat → List Char → Nat → Nat → Nat → Option (List (List Char))
  | 0, _, _, _, _ => none
  | fuel + 1, text, size, overlap, start =>
    if start < text.length then
      -- en := min len(text) (start + size); chunk := text[start:en]
      if min text.length (start + size) = text.length then
        some [(text.drop start).take (min text.length (start + size) - start)]
      else
        match chunkTextLoop fuel text size overlap
          (min text.length (start + size) - overlap) with
        | some rest =>
          some ((text.drop start).take (min text.length (start + size) - start) :: rest)
        | none => none
    else some []

/-- `chunk_text text size overlap` with the canonical fuel `len + 1`
(enough whenever the loop terminates at all, since each iteration advances
`start` by at least one when `overlap < size`). -/
def chunk_text (text : List Char) (size overlap : Nat) : Option (List (List Char)) :=
  chunkTextLoop (text.length + 1) text size overlap 0

/-! ## `build_faiss` from `rag/build_index.py` -/

/-- One chunk document (`{"text": c, "meta": {"spec": pdf.name, "page":
p["page"]}}`). -/
structure ChunkDoc where
  text : String
  spec : String
  page : Nat
deriving DecidableEq, Repr

/-- The default embedding-model name of `build_index.py`. -/
def EMBED_MODEL : String := "sentence-transformers/all-MiniLM-L6-v2"

/-- The durable artifacts `build_faiss` writes into `INDEX_DIR`. -/
inductive Artifact where
  /-- `faiss.write_index` of an `IndexFlatL2` holding one vector per doc. -/
  | faissIndex (vectorCount : Nat)
  /-- `json.dump(docs, ...)` into `docstore.json`. -/
  | docstoreJson (docs : List ChunkDoc)
  /-- `json.dump(meta, ...)` into `meta.json`. -/
  | metaJson (embedding_model : String) (count : Nat)
deriving DecidableEq, Repr

/-- `build_faiss docs`: the `(file name, artifact)` writes it performs, in
program order. The source has no exception handling: on an empty document
list `model.encode([])` returns a 1-D empty array, so `dim = embs.shape[1]`
raises IndexError before any file is written (`Except.error`); with at
least one chunk the embedding matrix is 2-D and the three writes happen. -/
def build_faiss (docs : List ChunkDoc) : Except String (List (String × Artifact)) :=
  if docs.isEmpty then .error "IndexError: tuple index out of range"
  else
    .ok [("faiss.index", .faissIndex docs.length),
         ("docstore.json", .docstoreJson docs),
         ("meta.json", .metaJson EMBED_MODEL docs.length)]

/-- `DATA_DIR` from `app.py`. -/
def DATA_DIR : String := "data"

/-- `DB_FILE` from `app.py`. -/
def DB_FILE : String := "mrts.db"

/-- `DB_PATH` from `app.py` (`os.path.join(DATA_DIR, DB_FILE)`). -/
def DB_PATH : String := DATA_DIR ++ "/" ++ DB_FILE

/-! ## Concrete fixtures used by counterexamples and witnesses -/

/-- Fixture clause row: its text contains both tokens of the query
`"air voids"`, but not the query as a substring. -/
def crow : ClauseRow :=
  { mrts := "MRTS05", revision := "r1", clause_id := "8.1", title := "Compaction",
    text := "voids in the air", page_start := 1, page_end := 2 }

/-- Fixture database with all four tables present. -/
def dbC1 : DB :=
  { tableNames := ["clauses", "clauses_fts", "tables", "tables_fts"],
    clauses := [crow], tables := [] }

/-- Fixture database with no tables at all. -/
def dbEmptyMaster : DB := { tableNames := [], clauses := [], tables := [] }

/-- Fixture table row whose caption/value text contain both query tokens. -/
def trow : TableRow :=
  { mrts := "MRTS05", revision := "r1", page := 12, table_id := "9.2.1",
    caption := "Air voids limits", value_text := "air | voids" }

/-- Fixture database with all four tables present and one table row. -/
def dbT : DB :=
  { tableNames := ["clauses", "clauses_fts", "tables", "tables_fts"],
    clauses := [], tables := [trow] }

/-- Fixture chunk document for the indexing pipeline. -/
def doc0 : ChunkDoc := { text := "air voids", spec := "mrts05.pdf", page := 1 }

/-- An oracle on which every pandas / csv call raises. -/
def failOracle : PandasOracle :=
  { read_html := fun _ => .error "boom", sniff := fun _ => .error "boom",
    read_csv := fun _ _ => .error "boom", read_fwf := fun _ => .error "boom" }

/-! ## C4: `build_fts_query` output format -/

/-- C4: for every non-empty token list, `build_fts_query` returns the
tokens each wrapped in double quotes (with embedded double-quote characters
deleted), joined by `" AND "` when `require_all` is true and by `" OR "`
otherwise; for the empty token list it returns the empty string. -/
theorem build_fts_query_spec (tokens : List String) (require_all : Bool) :
    (tokens = [] → build_fts_query tokens require_all = "") ∧
    (tokens ≠ [] → build_fts_query tokens require_all =
      String.intercalate (if require_all then " AND " else " OR ")
        (tokens.map (fun t => "\"" ++ (⟨t.data.filter (fun c => c != '"')⟩ : String) ++ "\""))) := by
  constructor
  · intro h; subst h; rfl
  · intro h
    rw [build_fts_query, if_neg (by simpa [List.isEmpty_iff] using h)]
    rfl

/-- Witness for C4 at concrete inputs (including an embedded quote). -/
theorem build_fts_query_spec_witness :
    build_fts_query [] true = "" ∧
    build_fts_query ["air", "vo\"ids"] true =
      String.intercalate (if true then " AND " else " OR ")
        ((["air", "vo\"ids"] : List String).map
          (fun t => "\"" ++ (⟨t.data.filter (fun c => c != '"')⟩ : String) ++ "\"")) :=
  ⟨(build_fts_query_spec [] true).1 rfl,
   (build_fts_query_spec ["air", "vo\"ids"] true).2 (by simp)⟩

/-! ## C2: durable artifacts of the indexing pipeline -/

/-- C2 counterexample: it is false that every file a run of the indexing
pipeline writes is the SQLite database holding the FTS5 table — on a
one-chunk document list the run succeeds and writes `faiss.index` (a FAISS
vector index), `docstore.json` and `meta.json`. -/
theorem build_faiss_not_only_sqlite :
    ¬ (∀ w ∈ ((build_faiss [doc0]).toOption.getD []),
        w.1 = DB_FILE ∨ w.1 = DB_PATH) := by
  decide

/-- C2 amended: on a nonempty document list `build_faiss` succeeds and
persists exactly three derived artifacts — the FAISS index `faiss.index`
(one vector per chunk), the chunk docstore `docstore.json`, and
`meta.json` — none of which is the SQLite database file; on an empty
document list it raises (IndexError at `embs.shape[1]`) before writing
anything. -/
theorem build_faiss_artifacts (docs : List ChunkDoc) :
    (docs ≠ [] → ∃ ws, build_faiss docs = .ok ws ∧
      ws.map Prod.fst = ["faiss.index", "docstore.json", "meta.json"] ∧
      ("faiss.index", Artifact.faissIndex docs.length) ∈ ws ∧
      ("docstore.json", Artifact.docstoreJson docs) ∈ ws ∧
      ("meta.json", Artifact.metaJson EMBED_MODEL docs.length) ∈ ws ∧
      ∀ w ∈ ws, w.1 ≠ DB_FILE ∧ w.1 ≠ DB_PATH) ∧
    (docs = [] → ∃ e, build_faiss docs = .error e) := by
  constructor
  · intro h
    have heq : build_faiss docs =
        .ok [("faiss.index", .faissIndex docs.length),
             ("docstore.json", .docstoreJson docs),
             ("meta.json", .metaJson EMBED_MODEL docs.length)] := by
      rw [build_faiss, if_neg (by simpa [List.isEmpty_iff] using h)]
    refine ⟨_, heq, rfl, by simp, by simp, by simp, ?_⟩
    intro w hw
    simp only [List.mem_cons, List.not_mem_nil, or_false] at hw
    rcases hw with h1 | h1 | h1
    all_goals subst h1
    · exact ⟨show "faiss.index" ≠ DB_FILE by decide,
        show "faiss.index" ≠ DB_PATH by decide⟩
    · exact ⟨show "docstore.json" ≠ DB_FILE by decide,
        show "docstore.json" ≠ DB_PATH by decide⟩
    · exact ⟨show "meta.json" ≠ DB_FILE by decide,
        show "meta.json" ≠ DB_PATH by decide⟩
  · intro h
    subst h
    exact ⟨_, rfl⟩

/-- Witness for C2's amended theorem: a successful one-chunk run and the
raising empty run. -/
theorem build_faiss_artifacts_witness :
    (∃ ws, build_faiss [doc0] = .ok ws ∧
      ws.map Prod.fst = ["faiss.index", "docstore.json", "meta.json"] ∧
      ("faiss.index", Artifact.faissIndex ([doc0] : List ChunkDoc).length) ∈ ws ∧
      ("docstore.json", Artifact.docstoreJson [doc0]) ∈ ws ∧
      ("meta.json", Artifact.metaJson EMBED_MODEL ([doc0] : List ChunkDoc).length) ∈ ws ∧
      ∀ w ∈ ws, w.1 ≠ DB_FILE ∧ w.1 ≠ DB_PATH) ∧
    (∃ e, build_faiss ([] : List ChunkDoc) = .error e) :=
  ⟨(build_faiss_artifacts [doc0]).1 (by decide),
   (build_faiss_artifacts []).2 rfl⟩

/-! ## C6: `chunk_text` -/

/-- Every chunk the loop yields from `start` is the slice
`text[start + i*(size-overlap) : ... + size]`, and those slices cover
`[start, len)`. -/
theorem chunkTextLoop_sound (text : List Char) (size overlap : Nat)
    (ho : overlap < size) :
    ∀ fuel start chunks, chunkTextLoop fuel text size overlap start = some chunks →
      (∀ i (hi : i < chunks.length),
        chunks.get ⟨i, hi⟩ = (text.drop (start + i * (size - overlap))).take size) ∧
      (∀ j, start ≤ j → j < text.length →
        ∃ i, i < chunks.length ∧ start + i * (size - overlap) ≤ j ∧
          j < start + i * (size - overlap) + size) := by
  intro fuel
  induction fuel with
  | zero => intro start chunks h; cases h
  | succ fuel ih =>
    intro start chunks h
    rw [chunkTextLoop] at h
    by_cases hst : start < text.length
    · rw [if_pos hst] at h
      by_cases hen : min text.length (start + size) = text.length
      · rw [if_pos hen] at h
        have hc := Option.some.inj h
        subst hc
        have hsz : text.length ≤ start + size := by omega
        constructor
        · intro i hi
          have hi0 : i = 0 := by simpa using Nat.lt_one_iff.mp (by simpa using hi)
          subst hi0
          have hlen : (text.drop start).length = text.length - start := by simp
          have h1 : (text.drop start).take (min text.length (start + size) - start) =
              text.drop start := List.take_of_length_le (by omega)
          have h2 : (text.drop start).take size = text.drop start :=
            List.take_of_length_le (by omega)
          simp [h1, h2]
        · intro j hj1 hj2
          exact ⟨0, by simp, by simpa using hj1, by simp; omega⟩
      · rw [if_neg hen] at h
        have hm : min text.length (start + size) = start + size ∧
            start + size < text.length := by omega
        rcases hrec : chunkTextLoop fuel text size overlap
            (min text.length (start + size) - overlap) with _ | rest
        · rw [hrec] at h; cases h
        · rw [hrec] at h
          have hc := Option.some.inj h
          subst hc
          have hstep : min text.length (start + size) - overlap =
              start + (size - overlap) := by omega
          rw [hstep] at hrec
          have hres := ih (start + (size - overlap)) rest hrec
          constructor
          · intro i hi
            match i with
            | 0 =>
              have : min text.length (start + size) - start = size := by omega
              simp [this]
            | Nat.succ i' =>
              have hi' : i' < rest.length := by simpa using Nat.lt_of_succ_lt_succ hi
              have hrw := hres.1 i' hi'
              have hmul : (i' + 1) * (size - overlap) =
                  i' * (size - overlap) + (size - overlap) := by ring
              have harith : start + (size - overlap) + i' * (size - overlap) =
                  start + (i' + 1) * (size - overlap) := by omega
              simpa [harith] using hrw
          · intro j hj1 hj2
            by_cases hjm : j < start + size
            · exact ⟨0, by simp, by simpa using hj1, by simp; omega⟩
            · have hj1' : start + (size - overlap) ≤ j := by omega
              obtain ⟨i', hi', hb1, hb2⟩ := hres.2 j hj1' hj2
              have hmul : (i' + 1) * (size - overlap) =
                  i' * (size - overlap) + (size - overlap) := by ring
              refine ⟨i' + 1, by simpa using Nat.succ_lt_succ hi', by omega, by omega⟩
    · rw [if_neg hst] at h
      have hc := Option.some.inj h
      subst hc
      exact ⟨fun i hi => absurd hi (by simp), fun j hj1 hj2 => absurd hj2 (by omega)⟩

/-- With `overlap < size` the loop terminates: fuel `len - start + 1`
suffices. -/
theorem chunkTextLoop_total (text : List Char) (size overlap : Nat)
    (ho : overlap < size) :
    ∀ fuel start, text.length - start < fuel →
      ∃ chunks, chunkTextLoop fuel text size overlap start = some chunks := by
  intro fuel
  induction fuel with
  | zero => intro start h; omega
  | succ fuel ih =>
    intro start hfuel
    rw [chunkTextLoop]
    by_cases hst : start < text.length
    · rw [if_pos hst]
      by_cases hen : min text.length (start + size) = text.length
      · rw [if_pos hen]; exact ⟨_, rfl⟩
      · rw [if_neg hen]
        obtain ⟨rest, hrest⟩ :=
          ih (min text.length (start + size) - overlap) (by omega)
        rw [hrest]
        exact ⟨_, rfl⟩
    · rw [if_neg hst]; exact ⟨[], rfl⟩

/-- With `overlap ≥ size` and a text strictly longer than `start + size`
the loop never terminates: every fuel is exhausted. -/
theorem chunkTextLoop_stuck (text : List Char) (size overlap : Nat)
    (hso : size ≤ overlap) :
    ∀ fuel start, start + size < text.length →
      chunkTextLoop fuel text size overlap start = none := by
  intro fuel
  induction fuel with
  | zero => intro start h; rfl
  | succ fuel ih =>
    intro start hlt
    rw [chunkTextLoop, if_pos (by omega), if_neg (by omega),
      ih (min text.length (start + size) - overlap) (by omega)]

/-- C6: for `size > 0` and `0 ≤ overlap < size`, `chunk_text` terminates
and yields chunks where chunk `i` is the slice starting at
`i * (size - overlap)` of length at most `size` (so the first chunk starts
at 0 and consecutive starts differ by exactly `size - overlap`), and the
chunks jointly cover the text; and `overlap < size` is necessary:
with `overlap ≥ size` and a text longer than `size` the loop runs forever
(no fuel suffices). -/
theorem chunk_text_spec (text : List Char) (size overlap : Nat) :
    (0 < size → overlap < size →
      ∃ chunks, chunk_text text size overlap = some chunks ∧
        (∀ i (hi : i < chunks.length),
          chunks.get ⟨i, hi⟩ = (text.drop (i * (size - overlap))).take size) ∧
        (∀ ch ∈ chunks, ch.length ≤ size) ∧
        (∀ j, j < text.length →
          ∃ i, i < chunks.length ∧ i * (size - overlap) ≤ j ∧
            j < i * (size - overlap) + size)) ∧
    (size ≤ overlap → size < text.length →
      ∀ fuel, chunkTextLoop fuel text size overlap 0 = none) := by
  constructor
  · intro hs ho
    obtain ⟨chunks, hch⟩ :=
      chunkTextLoop_total text size overlap ho (text.length + 1) 0 (by omega)
    have hsound := chunkTextLoop_sound text size overlap ho (text.length + 1) 0 chunks hch
    refine ⟨chunks, hch, ?_, ?_, ?_⟩
    · intro i hi
      have h0 := hsound.1 i hi
      rw [Nat.zero_add] at h0
      exact h0
    · intro ch hmem
      obtain ⟨⟨i, hi⟩, rfl⟩ := List.mem_iff_get.mp hmem
      rw [hsound.1 i hi]
      simpa using Nat.min_le_left size _
    · intro j hj
      obtain ⟨i, hi, hb1, hb2⟩ := hsound.2 j (Nat.zero_le j) hj
      exact ⟨i, hi, by omega, by omega⟩
  · intro hso hlen fuel
    exact chunkTextLoop_stuck text size overlap hso fuel 0 (by omega)

/-- Witness for C6: a terminating run (`size := 3`, `overlap := 1`) and a
diverging configuration (`size = overlap = 1`). -/
theorem chunk_text_spec_witness :
    (∃ chunks, chunk_text ['a', 'b', 'c', 'd', 'e'] 3 1 = some chunks ∧
      (∀ i (hi : i < chunks.length),
        chunks.get ⟨i, hi⟩ =
          ((['a', 'b', 'c', 'd', 'e'] : List Char).drop (i * (3 - 1))).take 3) ∧
      (∀ ch ∈ chunks, ch.length ≤ 3) ∧
      (∀ j, j < (['a', 'b', 'c', 'd', 'e'] : List Char).length →
        ∃ i, i < chunks.length ∧ i * (3 - 1) ≤ j ∧ j < i * (3 - 1) + 3)) ∧
    (∀ fuel, chunkTextLoop fuel ['a', 'b'] 1 1 0 = none) :=
  ⟨(chunk_text_spec ['a', 'b', 'c', 'd', 'e'] 3 1).1 (by decide) (by decide),
   (chunk_text_spec ['a', 'b'] 1 1).2 (by decide) (by decide)⟩

/-! ## C1: what the search actually matches -/

/-- C1 counterexample: for the query `"air voids"` on a database whose one
clause has text `"voids in the air"`, the search returns that row (both
query tokens occur in the FTS index) although its text does not contain
the query as a substring — the result set is not "exactly the rows whose
text contains the query as a substring". -/
theorem search_clauses_not_substring_scan :
    (search_clauses dbC1 "All MRTS" "air voids" true 10).1 ≠
      dbC1.clauses.filter (fun r => textContainsQuery r.text "air voids") := by
  decide

/-- C1 amended: for both search functions, with the base and FTS tables
present, a nonempty tokenization and a non-binding LIMIT, a row is in the
result iff it is a database row passing the MRTS filter whose FTS5-indexed
columns contain every query-token phrase (`require_all`) resp. at least
one phrase (otherwise) — token/phrase containment, not substring
containment (SQLite's bm25 ordering and the LIMIT cut are abstracted). -/
theorem search_fts_characterization
    (db : DB) (mrts_filter query : String) (require_all : Bool) (limit : Nat)
    (h3 : tokenize query ≠ []) :
    (has_table db "clauses" = true → has_table db "clauses_fts" = true →
      db.clauses.length ≤ limit →
      ∀ r : ClauseRow,
        r ∈ (search_clauses db mrts_filter query require_all limit).1 ↔
          r ∈ db.clauses ∧ mrtsFilterOk mrts_filter r.mrts = true ∧
          ((require_all = true → ∀ t ∈ tokenize query,
              ftsPhraseHit (clauseDoc r) (ftsPhrase t) = true) ∧
           (require_all = false → ∃ t ∈ tokenize query,
              ftsPhraseHit (clauseDoc r) (ftsPhrase t) = true))) ∧
    (has_table db "tables" = true → has_table db "tables_fts" = true →
      db.tables.length ≤ limit →
      ∀ r : TableRow,
        r ∈ (search_tables db mrts_filter query require_all limit).1 ↔
          r ∈ db.tables ∧ mrtsFilterOk mrts_filter r.mrts = true ∧
          ((require_all = true → ∀ t ∈ tokenize query,
              ftsPhraseHit (tableDoc r) (ftsPhrase t) = true) ∧
           (require_all = false → ∃ t ∈ tokenize query,
              ftsPhraseHit (tableDoc r) (ftsPhrase t) = true))) := by
  have hne : (tokenize query).isEmpty = false := by
    cases htk : tokenize query with
    | nil => exact absurd htk h3
    | cons a l => rfl
  constructor
  · intro h1 h2 h4 r
    simp only [search_clauses, h1, h2, hne, not_true_eq_false, if_false,
      Bool.false_eq_true]
    rw [List.take_of_length_le (le_trans (List.length_filter_le _ _) h4),
      List.mem_filter]
    cases require_all
    · simp only [ftsMatch, Bool.false_eq_true, if_false, Bool.and_eq_true,
        List.any_eq_true, false_implies, true_and, true_implies, and_true]
      tauto
    · simp only [ftsMatch, if_true, Bool.and_eq_true, List.all_eq_true,
        true_implies, Bool.true_eq_false, false_implies, and_true]
      tauto
  · intro h1 h2 h4 r
    simp only [search_tables, h1, h2, hne, not_true_eq_false, if_false,
      Bool.false_eq_true]
    rw [List.take_of_length_le (le_trans (List.length_filter_le _ _) h4),
      List.mem_filter]
    cases require_all
    · simp only [ftsMatch, Bool.false_eq_true, if_false, Bool.and_eq_true,
        List.any_eq_true, false_implies, true_and, true_implies, and_true]
      tauto
    · simp only [ftsMatch, if_true, Bool.and_eq_true, List.all_eq_true,
        true_implies, Bool.true_eq_false, false_implies, and_true]
      tauto

/-- Witness for C1's amended theorem: the clause half on `dbC1`/`crow` and
the table half on `dbT`/`trow`. -/
theorem search_fts_characterization_witness :
    (crow ∈ (search_clauses dbC1 "All MRTS" "air voids" true 10).1 ↔
      crow ∈ dbC1.clauses ∧ mrtsFilterOk "All MRTS" crow.mrts = true ∧
      ((true = true → ∀ t ∈ tokenize "air voids",
          ftsPhraseHit (clauseDoc crow) (ftsPhrase t) = true) ∧
       (true = false → ∃ t ∈ tokenize "air voids",
          ftsPhraseHit (clauseDoc crow) (ftsPhrase t) = true))) ∧
    (trow ∈ (search_tables dbT "All MRTS" "air voids" true 10).1 ↔
      trow ∈ dbT.tables ∧ mrtsFilterOk "All MRTS" trow.mrts = true ∧
      ((true = true → ∀ t ∈ tokenize "air voids",
          ftsPhraseHit (tableDoc trow) (ftsPhrase t) = true) ∧
       (true = false → ∃ t ∈ tokenize "air voids",
          ftsPhraseHit (tableDoc trow) (ftsPhrase t) = true))) :=
  ⟨(search_fts_characterization dbC1 "All MRTS" "air voids" true 10
      (by decide)).1 (by decide) (by decide) (by decide) crow,
   (search_fts_characterization dbT "All MRTS" "air voids" true 10
      (by decide)).2 (by decide) (by decide) (by decide) trow⟩

/-! ## C7: guard paths of the search functions -/

/-- On every guard path (empty tokenization or a missing table) the clause
search returns no rows and executes only `sqlite_master` lookups. -/
theorem search_clauses_no_data_sql (db : DB) (f q : String) (ra : Bool) (lim : Nat)
    (h : tokenize q = [] ∨ has_table db "clauses" = false ∨
      has_table db "clauses_fts" = false) :
    (search_clauses db f q ra lim).1 = [] ∧
    ∀ s ∈ (search_clauses db f q ra lim).2, s.isMasterLookup = true := by
  cases hc1 : has_table db "clauses" with
  | false => simp [search_clauses, hc1, Stmt.isMasterLookup]
  | true =>
    cases hc2 : has_table db "clauses_fts" with
    | false => simp [search_clauses, hc1, hc2, Stmt.isMasterLookup]
    | true =>
      have htok : tokenize q = [] := by
        rcases h with h | h | h
        · exact h
        · rw [hc1] at h; cases h
        · rw [hc2] at h; cases h
      simp [search_clauses, hc1, hc2, htok, Stmt.isMasterLookup]

/-- Same for the table search. -/
theorem search_tables_no_data_sql (db : DB) (f q : String) (ra : Bool) (lim : Nat)
    (h : tokenize q = [] ∨ has_table db "tables" = false ∨
      has_table db "tables_fts" = false) :
    (search_tables db f q ra lim).1 = [] ∧
    ∀ s ∈ (search_tables db f q ra lim).2, s.isMasterLookup = true := by
  cases hc1 : has_table db "tables" with
  | false => simp [search_tables, hc1, Stmt.isMasterLookup]
  | true =>
    cases hc2 : has_table db "tables_fts" with
    | false => simp [search_tables, hc1, hc2, Stmt.isMasterLookup]
    | true =>
      have htok : tokenize q = [] := by
        rcases h with h | h | h
        · exact h
        · rw [hc1] at h; cases h
        · rw [hc2] at h; cases h
      simp [search_tables, hc1, hc2, htok, Stmt.isMasterLookup]

/-- C7 counterexample: for the stop-word query `"the"` (empty
tokenization) on a database with all tables present, both search functions
return the empty result but their SQL trace is nonempty — the two
`sqlite_master` existence checks run, so "without issuing any SQL query"
is false as stated. -/
theorem empty_tokenization_still_queries_master :
    tokenize "the" = [] ∧
    (search_clauses dbC1 "All MRTS" "the" true 10).1 = [] ∧
    (search_tables dbC1 "All MRTS" "the" true 10).1 = [] ∧
    (search_clauses dbC1 "All MRTS" "the" true 10).2 ≠ [] ∧
    (search_tables dbC1 "All MRTS" "the" true 10).2 ≠ [] := by
  decide

/-- C7 amended: when the tokenization is empty, or a required base/FTS
table is absent, `search_clauses` and `search_tables` return an empty
result and execute no SQL against the data tables — every statement in
the trace is a `sqlite_master` existence check. -/
theorem search_guard_spec (db : DB) (f q : String) (ra : Bool) (lim : Nat) :
    (tokenize q = [] →
      (search_clauses db f q ra lim).1 = [] ∧
      (search_tables db f q ra lim).1 = [] ∧
      (∀ s ∈ (search_clauses db f q ra lim).2, s.isMasterLookup = true) ∧
      (∀ s ∈ (search_tables db f q ra lim).2, s.isMasterLookup = true)) ∧
    ((has_table db "clauses" = false ∨ has_table db "clauses_fts" = false) →
      (search_clauses db f q ra lim).1 = [] ∧
      ∀ s ∈ (search_clauses db f q ra lim).2, s.isMasterLookup = true) ∧
    ((has_table db "tables" = false ∨ has_table db "tables_fts" = false) →
      (search_tables db f q ra lim).1 = [] ∧
      ∀ s ∈ (search_tables db f q ra lim).2, s.isMasterLookup = true) := by
  refine ⟨?_, ?_, ?_⟩
  · intro htok
    have hc := search_clauses_no_data_sql db f q ra lim (Or.inl htok)
    have ht := search_tables_no_data_sql db f q ra lim (Or.inl htok)
    exact ⟨hc.1, ht.1, hc.2, ht.2⟩
  · intro h
    exact search_clauses_no_data_sql db f q ra lim (Or.inr h)
  · intro h
    exact search_tables_no_data_sql db f q ra lim (Or.inr h)

/-- Witness for C7's amended theorem: a stop-word query on the full
fixture database, and a real query on a database with no tables. -/
theorem search_guard_spec_witness :
    ((search_clauses dbC1 "All MRTS" "the" true 5).1 = [] ∧
      (search_tables dbC1 "All MRTS" "the" true 5).1 = [] ∧
      (∀ s ∈ (search_clauses dbC1 "All MRTS" "the" true 5).2, s.isMasterLookup = true) ∧
      (∀ s ∈ (search_tables dbC1 "All MRTS" "the" true 5).2, s.isMasterLookup = true)) ∧
    ((search_clauses dbEmptyMaster "All MRTS" "air" true 5).1 = [] ∧
      ∀ s ∈ (search_clauses dbEmptyMaster "All MRTS" "air" true 5).2,
        s.isMasterLookup = true) :=
  ⟨(search_guard_spec dbC1 "All MRTS" "the" true 5).1 (by decide),
   (search_guard_spec dbEmptyMaster "All MRTS" "air" true 5).2.1 (Or.inl (by decide))⟩

/-! ## C3: the tokenizer -/

theorem mem_dedupSpec (l : List String) : ∀ x, x ∈ dedupSpec l ↔ x ∈ l := by
  induction l using dedupSpec.induct with
  | case1 => intro x; rw [dedupSpec]
  | case2 t ts ih =>
    intro x
    rw [dedupSpec]
    simp only [List.mem_cons, ih, List.mem_filter]
    constructor
    · rintro (rfl | ⟨hx, _⟩)
      · exact Or.inl rfl
      · exact Or.inr hx
    · rintro (rfl | hx)
      · exact Or.inl rfl
      · by_cases hxt : x = t
        · exact Or.inl hxt
        · exact Or.inr ⟨hx, by simpa using hxt⟩

theorem dedupSpec_nodup (l : List String) : (dedupSpec l).Nodup := by
  induction l using dedupSpec.induct with
  | case1 => rw [dedupSpec]; exact List.nodup_nil
  | case2 t ts ih =>
    rw [dedupSpec]
    refine List.nodup_cons.mpr ⟨?_, ih⟩
    intro hmem
    have h := (mem_dedupSpec _ t).mp hmem
    rw [List.mem_filter] at h
    simpa using h.2

/-- The seen-set loop of the source computes exactly "keep the first
occurrence of each token". -/
theorem dedupAux_eq_dedupSpec (l : List String) :
    ∀ seen, dedupAux l seen = dedupSpec (l.filter (fun t => !seen.contains t)) := by
  induction l with
  | nil =>
    intro seen
    rw [List.filter_nil, show dedupAux [] seen = [] from rfl, dedupSpec]
  | cons t ts ih =>
    intro seen
    by_cases h : seen.contains t = true
    · rw [dedupAux, if_pos h, ih seen, List.filter_cons]
      have hmem : t ∈ seen := by simpa using h
      simp [hmem]
    · have h' : seen.contains t = false := by simpa using h
      have hcond : (!seen.contains t) = true := by rw [h']; rfl
      rw [dedupAux, if_neg h, ih (t :: seen), List.filter_cons, if_pos hcond]
      rw [dedupSpec]
      congr 1
      rw [List.filter_filter]
      congr 1
      apply List.filter_congr
      intro x hx
      by_cases hxt : x = t
      · subst hxt
        simp [List.contains_cons]
      · have hbeq : (x == t) = false := by simpa using hxt
        simp [List.contains_cons, hbeq, hxt]

theorem noTwoDots_iff_chain (cs : List Char) :
    noTwoDots cs = true ↔ List.Chain' (fun a b => ¬(a = '.' ∧ b = '.')) cs := by
  induction cs with
  | nil => simp [noTwoDots]
  | cons a t ih =>
    cases t with
    | nil => simp [noTwoDots]
    | cons b t2 =>
      have hb : (!(decide (a = '.') && decide (b = '.'))) = true ↔
          ¬(a = '.' ∧ b = '.') := by
        cases ha : decide (a = '.') <;> cases hbd : decide (b = '.') <;> simp_all
      rw [noTwoDots, Bool.and_eq_true, List.chain'_cons]
      exact and_congr hb ih

theorem isLowerAlnum_ne_dot {c : Char} (h : isLowerAlnum c = true) : c ≠ '.' := by
  rintro rfl
  exact absurd h (by decide)

theorem dottedShape_singleton {c : Char} (h : isLowerAlnum c = true) :
    dottedShape [c] = true := by
  simp [dottedShape, lastAlnum, noTwoDots, h]

/-- A valid dotted token stays valid when an alphanumeric character is
appended. -/
theorem dottedShape_push {xs : List Char} {c : Char}
    (hx : dottedShape xs = true) (hc : isLowerAlnum c = true) :
    dottedShape (xs ++ [c]) = true := by
  cases xs with
  | nil => simp [dottedShape] at hx
  | cons x xt =>
    rw [dottedShape] at hx
    simp only [Bool.and_eq_true] at hx
    obtain ⟨⟨⟨h1, h2⟩, h3⟩, h4⟩ := hx
    have hall : (x :: xt ++ [c]).all (fun y => isLowerAlnum y || y = '.') = true := by
      rw [show x :: xt ++ [c] = (x :: xt) ++ [c] from rfl, List.all_append]
      simp [h2, hc]
    have hlast : lastAlnum (x :: xt ++ [c]) = true := by
      rw [lastAlnum, show x :: xt ++ [c] = (x :: xt) ++ [c] from rfl,
        List.getLast?_concat]
      exact hc
    have hchain : noTwoDots (x :: xt ++ [c]) = true := by
      rw [noTwoDots_iff_chain]
      rw [show x :: xt ++ [c] = (x :: xt) ++ [c] from rfl]
      rw [List.chain'_append]
      refine ⟨(noTwoDots_iff_chain _).mp h4, List.chain'_singleton _, ?_⟩
      intro z _ y hy
      simp only [List.head?_cons, Option.mem_def, Option.some.injEq] at hy
      subst hy
      rintro ⟨_, hdot⟩
      exact isLowerAlnum_ne_dot hc hdot
    rw [show (x :: xt) ++ [c] = x :: (xt ++ [c]) from rfl, dottedShape]
    simp only [Bool.and_eq_true]
    exact ⟨⟨⟨h1, hall⟩, hlast⟩, hchain⟩

/-- A valid dotted token stays valid when a dot and an alphanumeric
character are appended. -/
theorem dottedShape_push_dot {xs : List Char} {r : Char}
    (hx : dottedShape xs = true) (hr : isLowerAlnum r = true) :
    dottedShape (xs ++ ['.', r]) = true := by
  cases xs with
  | nil => simp [dottedShape] at hx
  | cons x xt =>
    rw [dottedShape] at hx
    simp only [Bool.and_eq_true] at hx
    obtain ⟨⟨⟨h1, h2⟩, h3⟩, h4⟩ := hx
    have hall : (x :: xt ++ ['.', r]).all (fun y => isLowerAlnum y || y = '.') = true := by
      rw [show x :: xt ++ ['.', r] = (x :: xt) ++ ['.', r] from rfl, List.all_append]
      simp [h2, hr]
    have hlast : lastAlnum (x :: xt ++ ['.', r]) = true := by
      rw [lastAlnum, show x :: xt ++ ['.', r] = ((x :: xt) ++ ['.']) ++ [r] by simp,
        List.getLast?_concat]
      exact hr
    have hzlast : ∀ z, (x :: xt).getLast? = some z → isLowerAlnum z = true := by
      intro z hz
      rw [lastAlnum, hz] at h3
      exact h3
    have hchain : noTwoDots (x :: xt ++ ['.', r]) = true := by
      rw [noTwoDots_iff_chain]
      rw [show x :: xt ++ ['.', r] = (x :: xt) ++ ['.', r] from rfl]
      rw [List.chain'_append]
      refine ⟨(noTwoDots_iff_chain _).mp h4, ?_, ?_⟩
      · rw [List.chain'_cons]
        refine ⟨?_, List.chain'_singleton _⟩
        rintro ⟨_, hdot⟩
        exact isLowerAlnum_ne_dot hr hdot
      · intro z hz y hy
        simp only [List.head?_cons, Option.mem_def, Option.some.injEq] at hy
        subst hy
        rintro ⟨hzdot, _⟩
        exact isLowerAlnum_ne_dot (hzlast z hz) hzdot
    rw [show (x :: xt) ++ ['.', r] = x :: (xt ++ ['.', r]) from rfl, dottedShape]
    simp only [Bool.and_eq_true]
    exact ⟨⟨⟨h1, hall⟩, hlast⟩, hchain⟩

/-- Every token the regex scan emits has the dotted-alphanumeric shape. -/
theorem scanTokens_shape :
    ∀ l acc, (acc = [] ∨ dottedShape acc.reverse = true) →
      ∀ t ∈ scanTokens l acc, dottedShape t = true := by
  intro l acc
  induction l, acc using scanTokens.induct with
  | case1 acc hemp =>
    intro _ t ht
    rw [scanTokens, if_pos hemp] at ht
    cases ht
  | case2 acc hemp =>
    intro hinv t ht
    rw [scanTokens, if_neg hemp] at ht
    rcases hinv with rfl | hsh
    · exact absurd (by decide : ([] : List Char).isEmpty = true) hemp
    · rcases List.mem_singleton.mp ht with rfl
      exact hsh
  | case3 r rs a as_ hr ih =>
    intro hinv t ht
    rw [scanTokens, if_pos hr] at ht
    refine ih ?_ t ht
    right
    have hsh : dottedShape ((a :: as_).reverse) = true := by
      rcases hinv with h | h
      · cases h
      · exact h
    have : (r :: '.' :: a :: as_).reverse = (a :: as_).reverse ++ ['.', r] := by
      simp
    rw [this]
    exact dottedShape_push_dot hsh hr
  | case4 r rs a as_ hr ih =>
    intro hinv t ht
    rw [scanTokens, if_neg hr] at ht
    rcases List.mem_cons.mp ht with rfl | ht2
    · rcases hinv with h | h
      · cases h
      · exact h
    · exact ih (Or.inl rfl) t ht2
  | case5 c rest acc hne hc ih =>
    intro hinv t ht
    rw [scanTokens, if_pos hc] at ht
    · refine ih ?_ t ht
      right
      have hrev : (c :: acc).reverse = acc.reverse ++ [c] := by simp
      rw [hrev]
      rcases hinv with rfl | hsh
      · simpa using dottedShape_singleton hc
      · exact dottedShape_push hsh hc
    · exact hne
  | case6 c rest acc hne hc hemp ih =>
    intro _ t ht
    rw [scanTokens, if_neg hc, if_pos hemp] at ht
    · exact ih (Or.inl rfl) t ht
    · exact hne
  | case7 c rest acc hne hc hemp ih =>
    intro hinv t ht
    rw [scanTokens, if_neg hc, if_neg hemp] at ht
    · rcases List.mem_cons.mp ht with rfl | ht2
      · rcases hinv with rfl | hsh
        · exact absurd (by decide : ([] : List Char).isEmpty = true) hemp
        · exact hsh
      · exact ih (Or.inl rfl) t ht2
    · exact hne

/-- C3: `tokenize` returns the dotted lowercase-alphanumeric regex tokens
of the normalized query, with stop words and tokens shorter than two
characters removed, deduplicated keeping the first occurrence of each
token in order (`dedupSpec`), so the result has no duplicates and every
returned token is a ≥2-character non-stop-word of dotted shape. -/
theorem tokenize_spec (q : String) :
    tokenize q = dedupSpec ((rawTokens q).filter keepToken) ∧
    (tokenize q).Nodup ∧
    ∀ t ∈ tokenize q, 2 ≤ t.length ∧ STOPWORDS.contains t = false ∧
      dottedShape t.data = true := by
  have h1 : tokenize q = dedupSpec ((rawTokens q).filter keepToken) := by
    rw [tokenize, dedupAux_eq_dedupSpec]
    congr 1
    simp
  refine ⟨h1, ?_, ?_⟩
  · rw [h1]; exact dedupSpec_nodup _
  · intro t ht
    rw [h1, mem_dedupSpec, List.mem_filter] at ht
    obtain ⟨hraw, hkeep⟩ := ht
    rw [keepToken, Bool.and_eq_true] at hkeep
    obtain ⟨hstop, hlen⟩ := hkeep
    refine ⟨by simpa using hlen, by simpa using hstop, ?_⟩
    rw [rawTokens] at hraw
    obtain ⟨cs, hcs, rfl⟩ := List.mem_map.mp hraw
    exact scanTokens_shape _ [] (Or.inl rfl) cs hcs

/-- Witness for C3 on a query with casing, a stop word, duplicates and a
dotted token. -/
theorem tokenize_spec_witness :
    tokenize "the Air  voids 9.2.1 air" =
      dedupSpec ((rawTokens "the Air  voids 9.2.1 air").filter keepToken) ∧
    (2 ≤ ("9.2.1" : String).length ∧ STOPWORDS.contains "9.2.1" = false ∧
      dottedShape ("9.2.1" : String).data = true) :=
  ⟨(tokenize_spec "the Air  voids 9.2.1 air").1,
   (tokenize_spec "the Air  voids 9.2.1 air").2.2 "9.2.1" (by decide)⟩

/-! ## C5: the `parse_table_text` fallback cascade -/

/-- C5: `parse_table_text` is total with an `Option` result for every
oracle behaviour (so no library exception propagates): a blank input gives
`None` without calling any strategy; a raised exception in `read_html`,
the sniffer (whose source-level fallback itself raises on the immutable
built-in dialect) + `read_csv`, or `read_fwf` makes that strategy yield
nothing; when all four strategies fail the result is `None`; and any
returned DataFrame is the result of one of the four strategies. -/
theorem parse_table_text_spec (O : PandasOracle) (value_text : Option String) :
    (vtOf value_text = [] → parse_table_text O value_text = none) ∧
    (∀ e, O.read_html (⟨vtOf value_text⟩ : String) = .error e →
      parseHtmlStage O (vtOf value_text) = none) ∧
    (∀ e, O.sniff (sniffSample (vtOf value_text)) = .error e →
      parseCsvStage O (vtOf value_text) = none) ∧
    (∀ d e, O.sniff (sniffSample (vtOf value_text)) = .ok d →
      O.read_csv d (⟨vtOf value_text⟩ : String) = .error e →
      parseCsvStage O (vtOf value_text) = none) ∧
    (∀ e, O.read_fwf (⟨vtOf value_text⟩ : String) = .error e →
      parseFwfStage O (vtOf value_text) = none) ∧
    (parseHtmlStage O (vtOf value_text) = none →
      parsePipeStage (vtOf value_text) = none →
      parseCsvStage O (vtOf value_text) = none →
      parseFwfStage O (vtOf value_text) = none →
      parse_table_text O value_text = none) ∧
    (∀ df, parse_table_text O value_text = some df →
      parseHtmlStage O (vtOf value_text) = some df ∨
      parsePipeStage (vtOf value_text) = some df ∨
      parseCsvStage O (vtOf value_text) = some df ∨
      parseFwfStage O (vtOf value_text) = some df) := by
  refine ⟨?_, ?_, ?_, ?_, ?_, ?_, ?_⟩
  · intro h
    simp [parse_table_text, h]
  · intro e h
    simp [parseHtmlStage, h]
  · intro e h
    simp [parseCsvStage, h]
  · intro d e hd he
    simp [parseCsvStage, hd, he]
  · intro e h
    simp [parseFwfStage, h]
  · intro h1 h2 h3 h4
    by_cases hvt : (vtOf value_text).isEmpty <;>
      simp [parse_table_text, hvt, h1, h2, h3, h4]
  · intro df h
    rw [parse_table_text] at h
    by_cases hvt : (vtOf value_text).isEmpty
    · rw [if_pos hvt] at h; cases h
    · rw [if_neg hvt] at h
      rcases h1 : parseHtmlStage O (vtOf value_text) with _ | df1
      · rw [h1] at h
        rcases h2 : parsePipeStage (vtOf value_text) with _ | df2
        · rw [h2] at h
          rcases h3 : parseCsvStage O (vtOf value_text) with _ | df3
          · rw [h3] at h
            simp only [Option.none_orElse] at h
            exact Or.inr (Or.inr (Or.inr h))
          · rw [h3] at h
            simp only [Option.none_orElse, Option.some_orElse] at h
            exact Or.inr (Or.inr (Or.inl h))
        · rw [h2] at h
          simp only [Option.none_orElse, Option.some_orElse] at h
          exact Or.inr (Or.inl h)
      · rw [h1] at h
        simp only [Option.some_orElse] at h
        exact Or.inl h

/-- Witness for C5: on an all-raising oracle and non-table text, every
strategy fails and the parse returns `None`. -/
theorem parse_table_text_spec_witness :
    parse_table_text failOracle (some "hello world") = none :=
  (parse_table_text_spec failOracle (some "hello world")).2.2.2.2.2.1
    (by decide) (by decide) (by decide) (by decide)

/-! ## C9: the simple-view preview -/

/-- C9: for nonempty stripped table text that neither parses into a usable
(nonempty) DataFrame nor looks like a pipe table, the non-detailed view
renders the preview: the first 600 characters followed by an ellipsis when
the text is longer than 600 characters, the full text unmodified
otherwise (with the full text behind the expander in both cases). -/
theorem render_preview_spec (O : PandasOracle) (value_text : Option String)
    (hvt : vtOf value_text ≠ [])
    (hparse : ∀ df, parse_table_text O (some (⟨vtOf value_text⟩ : String)) = some df →
      df.pdEmpty = true)
    (hpipe : looks_like_pipe_table (vtOf value_text) = false) :
    render_table_value_text O value_text false =
      .previewText
        ((⟨(vtOf value_text).take 600⟩ : String) ++
          (if 600 < (vtOf value_text).length then "…" else ""))
        (⟨vtOf value_text⟩ : String) ∧
    ((vtOf value_text).length ≤ 600 →
      render_table_value_text O value_text false =
        .previewText (⟨vtOf value_text⟩ : String) (⟨vtOf value_text⟩ : String)) := by
  have hvt' : (vtOf value_text).isEmpty = false := by
    cases hv : vtOf value_text with
    | nil => exact absurd hv hvt
    | cons a l => rfl
  have htail : render_table_value_text O value_text false =
      renderTextTail (vtOf value_text) false := by
    rw [render_table_value_text]
    simp only [hvt', Bool.false_eq_true, if_false]
    rcases hp : parse_table_text O (some (⟨vtOf value_text⟩ : String)) with _ | df
    · rfl
    · have hempty := hparse df hp
      simp [hempty]
  have hpv : render_table_value_text O value_text false =
      .previewText
        ((⟨(vtOf value_text).take 600⟩ : String) ++
          (if 600 < (vtOf value_text).length then "…" else ""))
        (⟨vtOf value_text⟩ : String) := by
    rw [htail, renderTextTail]
    simp [hpipe]
  refine ⟨hpv, ?_⟩
  intro hlen
  rw [hpv]
  have h1 : (vtOf value_text).take 600 = vtOf value_text :=
    List.take_of_length_le hlen
  have h2 : ¬ 600 < (vtOf value_text).length := by omega
  rw [h1, if_neg h2, String.append_empty]

/-- Witness for C9 on short plain text under the all-raising oracle. -/
theorem render_preview_spec_witness :
    render_table_value_text failOracle (some "plain text") false =
      .previewText
        ((⟨(vtOf (some "plain text")).take 600⟩ : String) ++
          (if 600 < (vtOf (some "plain text")).length then "…" else ""))
        (⟨vtOf (some "plain text")⟩ : String) ∧
    ((vtOf (some "plain text")).length ≤ 600 →
      render_table_value_text failOracle (some "plain text") false =
        .previewText (⟨vtOf (some "plain text")⟩ : String)
          (⟨vtOf (some "plain text")⟩ : String)) :=
  render_preview_spec failOracle (some "plain text") (by decide)
    (fun df h => by
      rw [show parse_table_text failOracle
          (some (⟨vtOf (some "plain text")⟩ : String)) = none from by decide] at h
      cases h)
    (by decide)

/-! ## C8: idempotence of `norm`

Strategy: each stage of the pipeline establishes an invariant that all the
later stages (and stripping) preserve, and on inputs satisfying all the
invariants every stage is the identity. -/

theorem subCR_not_mem_cr (l : List Char) : '\r' ∉ subCR l := by
  intro h
  obtain ⟨c, _, hc⟩ := List.mem_map.mp h
  by_cases h1 : c = '\r' <;> simp [h1] at hc

theorem subCR_eq_self {l : List Char} (h : '\r' ∉ l) : subCR l = l := by
  induction l with
  | nil => rfl
  | cons c rest ih =>
    rw [subCR, List.map_cons]
    have hc : c ≠ '\r' := fun hc => h (hc ▸ List.mem_cons_self c rest)
    rw [if_neg hc]
    have := ih (fun hr => h (List.mem_cons_of_mem c hr))
    rw [subCR] at this
    rw [this]

theorem stScan_mem {l : List Char} {b : Bool} {x : Char}
    (h : x ∈ stScan l b) : x ∈ l ∨ x = ' ' := by
  induction l generalizing b with
  | nil => cases h
  | cons c rest ih =>
    rw [stScan] at h
    by_cases hst : isSpaceTab c = true
    · rw [if_pos hst] at h
      cases b with
      | true =>
        rcases ih h with h1 | h1
        · exact Or.inl (List.mem_cons_of_mem c h1)
        · exact Or.inr h1
      | false =>
        rcases List.mem_cons.mp h with rfl | h1
        · exact Or.inr rfl
        · rcases ih h1 with h2 | h2
          · exact Or.inl (List.mem_cons_of_mem c h2)
          · exact Or.inr h2
    · rw [if_neg hst] at h
      rcases List.mem_cons.mp h with rfl | h1
      · exact Or.inl (List.mem_cons_self _ _)
      · rcases ih h1 with h2 | h2
        · exact Or.inl (List.mem_cons_of_mem c h2)
        · exact Or.inr h2

theorem stScan_not_mem_tab (l : List Char) (b : Bool) : '\t' ∉ stScan l b := by
  induction l generalizing b with
  | nil => intro h; cases h
  | cons c rest ih =>
    intro h
    rw [stScan] at h
    by_cases hst : isSpaceTab c = true
    · rw [if_pos hst] at h
      cases b with
      | true => exact ih true h
      | false =>
        rcases List.mem_cons.mp h with heq | h1
        · cases heq
        · exact ih true h1
    · rw [if_neg hst] at h
      rcases List.mem_cons.mp h with rfl | h1
      · exact hst (by rfl)
      · exact ih false h1

theorem stScan_head_true (l : List Char) :
    ∀ x, (stScan l true).head? = some x → isSpaceTab x = false := by
  induction l with
  | nil => intro x hx; cases hx
  | cons c rest ih =>
    intro x hx
    rw [stScan] at hx
    by_cases hst : isSpaceTab c = true
    · rw [if_pos hst] at hx
      exact ih x hx
    · rw [if_neg hst] at hx
      rw [List.head?_cons, Option.some.injEq] at hx
      subst hx
      simpa using hst

theorem stScan_chain (l : List Char) (b : Bool) :
    List.Chain' spaceRunOk (stScan l b) := by
  induction l generalizing b with
  | nil => rw [stScan]; exact List.chain'_nil
  | cons c rest ih =>
    rw [stScan]
    by_cases hst : isSpaceTab c = true
    · rw [if_pos hst]
      cases b with
      | true => exact ih true
      | false =>
        rw [if_neg (by decide : ¬ (false = true))]
        rw [List.chain'_cons']
        refine ⟨?_, ih true⟩
        intro y hy
        intro hpair
        have hy' : (stScan rest true).head? = some y := hy
        rw [stScan_head_true rest y hy'] at hpair
        exact absurd hpair.2 (by simp)
    · rw [if_neg hst]
      rw [List.chain'_cons']
      refine ⟨?_, ih false⟩
      intro y _
      intro hpair
      exact hst hpair.1

theorem stScan_fix {l : List Char} (hnt : '\t' ∉ l)
    (hch : List.Chain' spaceRunOk l) :
    stScan l false = l ∧
    ((∀ x, l.head? = some x → isSpaceTab x = false) → stScan l true = l) := by
  induction l with
  | nil => exact ⟨rfl, fun _ => rfl⟩
  | cons c rest ih =>
    have hnt' : '\t' ∉ rest := fun h => hnt (List.mem_cons_of_mem c h)
    have hch' : List.Chain' spaceRunOk rest := hch.tail
    have ihr := ih hnt' hch'
    by_cases hst : isSpaceTab c = true
    · have hcsp : c = ' ' := by
        rcases (by simpa [isSpaceTab] using hst : c = ' ' ∨ c = '\t') with h | h
        · exact h
        · exact absurd (h ▸ List.mem_cons_self c rest) hnt
      have hhead : ∀ x, rest.head? = some x → isSpaceTab x = false := by
        intro x hx
        cases rest with
        | nil => cases hx
        | cons d r2 =>
          have hxd : d = x := by
            have h2 : some d = some x := hx
            exact Option.some.inj h2
          subst hxd
          have hpair := (List.chain'_cons.mp hch).1
          by_cases hd : isSpaceTab d = true
          · exact absurd ⟨hst, hd⟩ hpair
          · simpa using hd
      constructor
      · rw [stScan, if_pos hst, if_neg (by decide : ¬ (false = true)),
          ihr.2 hhead, hcsp]
      · intro hx
        have h2 := hx c rfl
        rw [hst] at h2
        cases h2
    · have hst' : isSpaceTab c = false := by simpa using hst
      constructor
      · rw [stScan, if_neg hst, ihr.1]
      · intro _
        rw [stScan, if_neg hst, ihr.1]

theorem isPre_append (l1 l2 : List Char) : l1 <+: l1 ++ l2 :=
  List.prefix_append l1 l2

theorem chain_of_isPre {R : Char → Char → Prop} {l1 l2 : List Char}
    (h : List.Chain' R l1) (hp : l2 <+: l1) : List.Chain' R l2 :=
  List.Chain'.prefix h hp

theorem cbScan_mem :
    ∀ l st x, x ∈ cbScan l st →
      x ∈ l ∨ x = '\n' ∨ ∃ p, st = some p ∧ x ∈ p.2 := by
  intro l st
  induction l, st using cbScan.induct with
  | case1 => intro x hx; cases hx
  | case2 two buf =>
    intro x hx
    rw [cbScan] at hx
    rcases List.mem_append.mp hx with hm | hm
    · cases two <;> simp_all
    · exact Or.inr (Or.inr ⟨(two, buf), rfl, List.mem_reverse.mp hm⟩)
  | case3 rest ih =>
    intro x hx
    rw [cbScan, if_pos rfl] at hx
    rcases ih x hx with h | h | ⟨p, hp, hm⟩
    · exact Or.inl (List.mem_cons_of_mem _ h)
    · exact Or.inr (Or.inl h)
    · cases Option.some.inj hp; cases hm
  | case4 c rest hc ih =>
    intro x hx
    rw [cbScan, if_neg hc] at hx
    rcases List.mem_cons.mp hx with rfl | hx2
    · exact Or.inl (List.mem_cons_self _ _)
    · rcases ih x hx2 with h | h | ⟨p, hp, _⟩
      · exact Or.inl (List.mem_cons_of_mem _ h)
      · exact Or.inr (Or.inl h)
      · cases hp
  | case5 rest two buf ih =>
    intro x hx
    rw [cbScan, if_pos rfl] at hx
    rcases ih x hx with h | h | ⟨p, hp, hm⟩
    · exact Or.inl (List.mem_cons_of_mem _ h)
    · exact Or.inr (Or.inl h)
    · cases Option.some.inj hp; cases hm
  | case6 c rest two buf hc hs ih =>
    intro x hx
    rw [cbScan, if_neg hc, if_pos hs] at hx
    rcases ih x hx with h | h | ⟨p, hp, hm⟩
    · exact Or.inl (List.mem_cons_of_mem _ h)
    · exact Or.inr (Or.inl h)
    · cases Option.some.inj hp
      rcases List.mem_cons.mp hm with rfl | hm2
      · exact Or.inl (List.mem_cons_self _ _)
      · exact Or.inr (Or.inr ⟨(two, buf), rfl, hm2⟩)
  | case7 c rest two buf hc hs ih =>
    intro x hx
    rw [cbScan, if_neg hc, if_neg hs] at hx
    rcases List.mem_append.mp hx with hm | hm
    · rcases List.mem_append.mp hm with hm2 | hm2
      · cases two <;> simp_all
      · exact Or.inr (Or.inr ⟨(two, buf), rfl, List.mem_reverse.mp hm2⟩)
    · rcases List.mem_cons.mp hm with rfl | hm3
      · exact Or.inl (List.mem_cons_self _ _)
      · rcases ih x hm3 with h | h | ⟨p, hp, _⟩
        · exact Or.inl (List.mem_cons_of_mem _ h)
        · exact Or.inr (Or.inl h)
        · cases hp

theorem cbScan_head_some :
    ∀ (l : List Char) (two : Bool) (buf : List Char),
      (cbScan l (some (two, buf))).head? = some '\n' := by
  intro l
  induction l with
  | nil => intro two buf; cases two <;> rfl
  | cons c rest ih =>
    intro two buf
    rw [cbScan]
    by_cases h1 : c = '\n'
    · rw [if_pos h1]; exact ih true []
    · rw [if_neg h1]
      by_cases h2 : isPySpace c = true
      · rw [if_pos h2]; exact ih two (c :: buf)
      · rw [if_neg h2]; cases two <;> rfl

theorem cbScan_head_none (l : List Char) :
    (cbScan l none).head? = l.head? := by
  cases l with
  | nil => rfl
  | cons c rest =>
    rw [cbScan]
    by_cases h1 : c = '\n'
    · rw [if_pos h1, cbScan_head_some, h1]
      rfl
    · rw [if_neg h1]; rfl

theorem spaceRunOk_of_left {a b : Char} (h : isSpaceTab a = false) :
    spaceRunOk a b :=
  fun hp => by rw [h] at hp; cases hp.1

theorem chain_marker (two : Bool) :
    List.Chain' spaceRunOk (if two then ['\n', '\n'] else ['\n']) := by
  cases two
  · exact List.chain'_singleton _
  · exact List.chain'_pair.mpr (spaceRunOk_of_left (by decide))

theorem marker_getLast (two : Bool) :
    (if two then ['\n', '\n'] else ['\n']).getLast? = some '\n' := by
  cases two <;> rfl

/-- The blank-line collapse preserves "no two adjacent spaces/tabs"; for a
buffering state the invariant is over the buffered run re-attached to the
input. -/
theorem cbScan_chain :
    ∀ l st,
      (match st with
       | none => List.Chain' spaceRunOk l
       | some p => List.Chain' spaceRunOk (p.2.reverse ++ l)) →
      List.Chain' spaceRunOk (cbScan l st) := by
  intro l st
  induction l, st using cbScan.induct with
  | case1 => intro _; rw [cbScan]; exact List.chain'_nil
  | case2 two buf =>
    intro hyp
    rw [cbScan]
    rw [List.chain'_append]
    refine ⟨chain_marker two, ?_, ?_⟩
    · exact chain_of_isPre hyp (by simpa using isPre_append buf.reverse [])
    · intro x hx y _
      rw [marker_getLast] at hx
      cases Option.mem_def.mp hx
      exact spaceRunOk_of_left (by decide)
  | case3 rest ih =>
    intro hyp
    rw [cbScan, if_pos rfl]
    exact ih (by simpa using hyp.tail)
  | case4 c rest hc ih =>
    intro hyp
    rw [cbScan, if_neg hc]
    rw [List.chain'_cons']
    refine ⟨?_, ih hyp.tail⟩
    intro y hy
    rw [cbScan_head_none] at hy
    exact (List.chain'_cons'.mp hyp).1 y hy
  | case5 rest two buf ih =>
    intro hyp
    rw [cbScan, if_pos rfl]
    refine ih ?_
    simp only [List.reverse_nil, List.nil_append]
    exact hyp.suffix ((List.suffix_cons '\n' rest).trans (List.suffix_append _ _))
  | case6 c rest two buf hc hs ih =>
    intro hyp
    rw [cbScan, if_neg hc, if_pos hs]
    refine ih ?_
    show List.Chain' spaceRunOk ((c :: buf).reverse ++ rest)
    have hyp' : List.Chain' spaceRunOk (buf.reverse ++ c :: rest) := hyp
    have heq : (c :: buf).reverse ++ rest = buf.reverse ++ c :: rest := by
      simp [List.reverse_cons, List.append_assoc]
    rw [heq]
    exact hyp'
  | case7 c rest two buf hc hs ih =>
    intro hyp
    rw [cbScan, if_neg hc, if_neg hs]
    have hyp' : List.Chain' spaceRunOk (buf.reverse ++ c :: rest) := hyp
    have hcr : List.Chain' spaceRunOk (c :: rest) :=
      hyp'.suffix (List.suffix_append _ _)
    rw [List.chain'_append]
    refine ⟨?_, ?_, ?_⟩
    · rw [List.chain'_append]
      refine ⟨chain_marker two, chain_of_isPre hyp' (isPre_append _ _), ?_⟩
      intro x hx y _
      rw [marker_getLast] at hx
      cases Option.mem_def.mp hx
      exact spaceRunOk_of_left (by decide)
    · rw [List.chain'_cons']
      refine ⟨?_, ih hcr.tail⟩
      intro y hy
      rw [cbScan_head_none] at hy
      exact (List.chain'_cons'.mp hcr).1 y hy
    · intro x hx y hy
      have hy2 : y ∈ (some c : Option Char) := hy
      have hyc : y = c := (Option.some.inj (Option.mem_def.mp hy2)).symm
      subst hyc
      rcases hbuf : buf.reverse with _ | ⟨b, bs⟩
      · rw [hbuf] at hx
        rw [List.append_nil, marker_getLast] at hx
        cases Option.mem_def.mp hx
        exact spaceRunOk_of_left (by decide)
      · rw [hbuf, List.getLast?_append_of_ne_nil _ (by simp)] at hx
        have hseam := (List.chain'_append.mp hyp').2.2 x
        rw [hbuf] at hseam
        exact hseam hx y (Option.mem_def.mpr rfl)

theorem cbNormal_cons_ne {c : Char} (hc : c ≠ '\n') (rest : List Char) :
    cbNormal (c :: rest) = cbNormal rest := by
  rw [cbNormal, if_neg hc, Bool.true_and]

theorem cbNormal_skip {w : List Char} (hw : ∀ x ∈ w, x ≠ '\n') (t : List Char) :
    cbNormal (w ++ t) = cbNormal t := by
  induction w with
  | nil => rfl
  | cons c w2 ih =>
    rw [List.cons_append, cbNormal_cons_ne (hw c (List.mem_cons_self _ _))]
    exact ih (fun x hx => hw x (List.mem_cons_of_mem _ hx))

theorem noNlInRun_eq (l : List Char) :
    noNlInRun l = true ↔ '\n' ∉ l.takeWhile isPySpace := by
  simp [noNlInRun, List.contains]

theorem takeWhile_append_sat {p : Char → Bool} :
    ∀ {w t : List Char}, (∀ x ∈ w, p x = true) →
      (w ++ t).takeWhile p = w ++ t.takeWhile p := by
  intro w
  induction w with
  | nil => intro t _; rfl
  | cons c w2 ih =>
    intro t hw
    rw [List.cons_append,
      List.takeWhile_cons_of_pos (hw c (List.mem_cons_self _ _)),
      ih (fun x hx => hw x (List.mem_cons_of_mem _ hx)), List.cons_append]

theorem dropWhile_head_false (p : Char → Bool) (l : List Char) :
    ∀ x, (l.dropWhile p).head? = some x → p x = false := by
  induction l with
  | nil => intro x hx; cases hx
  | cons c rest ih =>
    intro x hx
    by_cases hc : p c = true
    · rw [List.dropWhile_cons_of_pos hc] at hx
      exact ih x hx
    · rw [List.dropWhile_cons_of_neg hc] at hx
      cases Option.some.inj hx
      simpa using hc

/-- A marker, a newline-free whitespace run and a normal tail starting with
a non-space character form a normal string. -/
theorem cbNormal_after_marker (two : Bool) {w t : List Char}
    (hw : ∀ x ∈ w, isPySpace x = true ∧ x ≠ '\n')
    (ht : t = [] ∨ ∃ c t2, t = c :: t2 ∧ isPySpace c = false)
    (hcb : cbNormal t = true) :
    cbNormal ((if two then ['\n', '\n'] else ['\n']) ++ (w ++ t)) = true := by
  have hwt_head : ∀ z, (w ++ t).head? = some z → z ≠ '\n' := by
    intro z hz
    cases w with
    | cons a w2 =>
      have haz : a = z := Option.some.inj hz
      exact haz ▸ (hw a (List.mem_cons_self _ _)).2
    | nil =>
      rcases ht with rfl | ⟨c, t2, rfl, hcns⟩
      · cases hz
      · have hcz : c = z := Option.some.inj hz
        subst hcz
        intro h
        rw [h] at hcns
        exact absurd hcns (by decide)
  have htw : t.takeWhile isPySpace = [] := by
    rcases ht with rfl | ⟨c, t2, rfl, hcns⟩
    · rfl
    · exact List.takeWhile_cons_of_neg (by rw [hcns]; exact Bool.false_ne_true)
  have hnoNl : noNlInRun (w ++ t) = true := by
    rw [noNlInRun_eq, takeWhile_append_sat (fun x hx => (hw x hx).1), htw,
      List.append_nil]
    intro hmem
    exact (hw '\n' hmem).2 rfl
  have hskip : cbNormal (w ++ t) = cbNormal t :=
    cbNormal_skip (fun x hx => (hw x hx).2) t
  have hh : ¬ ((w ++ t).head? = some '\n') := fun h => hwt_head '\n' h rfl
  have hstep : cbNormal ('\n' :: (w ++ t)) = true := by
    rw [cbNormal, if_pos rfl, if_neg hh, hnoNl, hskip, hcb]
    rfl
  cases two
  · exact hstep
  · show cbNormal ('\n' :: '\n' :: (w ++ t)) = true
    rw [cbNormal, if_pos rfl,
      if_pos (show ('\n' :: (w ++ t)).head? = some '\n' from rfl)]
    rw [List.tail_cons, hnoNl, hstep]
    rfl

/-- The blank-line collapse always produces a normal string. -/
theorem cbScan_normal :
    ∀ l st, (∀ p, st = some p → ∀ x ∈ p.2, isPySpace x = true ∧ x ≠ '\n') →
      cbNormal (cbScan l st) = true := by
  intro l st
  induction l, st using cbScan.induct with
  | case1 => intro _; rfl
  | case2 two buf =>
    intro hyp
    rw [cbScan]
    have h := cbNormal_after_marker two (w := buf.reverse) (t := [])
      (fun x hx => hyp (two, buf) rfl x (List.mem_reverse.mp hx)) (Or.inl rfl) rfl
    simpa using h
  | case3 rest ih =>
    intro _
    rw [cbScan, if_pos rfl]
    refine ih ?_
    intro p hp x hx
    cases Option.some.inj hp
    cases hx
  | case4 c rest hc ih =>
    intro _
    rw [cbScan, if_neg hc, cbNormal_cons_ne hc]
    exact ih (fun p hp => by cases hp)
  | case5 rest two buf ih =>
    intro _
    rw [cbScan, if_pos rfl]
    refine ih ?_
    intro p hp x hx
    cases Option.some.inj hp
    cases hx
  | case6 c rest two buf hc hs ih =>
    intro hyp
    rw [cbScan, if_neg hc, if_pos hs]
    refine ih ?_
    intro p hp x hx
    cases Option.some.inj hp
    rcases List.mem_cons.mp hx with rfl | hx2
    · exact ⟨hs, hc⟩
    · exact hyp (two, buf) rfl x hx2
  | case7 c rest two buf hc hs ih =>
    intro hyp
    rw [cbScan, if_neg hc, if_neg hs, List.append_assoc]
    refine cbNormal_after_marker two
      (fun x hx => hyp (two, buf) rfl x (List.mem_reverse.mp hx))
      (Or.inr ⟨c, cbScan rest none, rfl, by simpa using hs⟩) ?_
    rw [cbNormal_cons_ne hc]
    exact ih (fun p hp => by cases hp)

/-- Consuming a whitespace run just accumulates it into the buffer. -/
theorem cbScan_push :
    ∀ (w : List Char) (two : Bool) (buf t : List Char),
      (∀ x ∈ w, isPySpace x = true ∧ x ≠ '\n') →
      cbScan (w ++ t) (some (two, buf)) = cbScan t (some (two, w.reverse ++ buf)) := by
  intro w
  induction w with
  | nil => intro two buf t _; simp
  | cons c w2 ih =>
    intro two buf t hw
    have hc := hw c (List.mem_cons_self _ _)
    rw [List.cons_append, cbScan, if_neg hc.2, if_pos hc.1]
    rw [ih two (c :: buf) t (fun x hx => hw x (List.mem_cons_of_mem _ hx))]
    have hAB : w2.reverse ++ (c :: buf) = (c :: w2).reverse ++ buf := by
      simp [List.reverse_cons, List.append_assoc]
    rw [hAB]

/-- On a normal string whose leading whitespace run is newline-free, the
collapse in buffering state reproduces the run unchanged. -/
theorem cbScan_run_fix (n : Nat)
    (ihn : ∀ l : List Char, l.length ≤ n → cbNormal l = true → cbScan l none = l)
    (r2 : List Char) (two : Bool)
    (hno : noNlInRun r2 = true) (hcb : cbNormal r2 = true)
    (hlen : r2.length ≤ n) :
    cbScan r2 (some (two, [])) = (if two then ['\n', '\n'] else ['\n']) ++ r2 := by
  have hsplit : r2.takeWhile isPySpace ++ r2.dropWhile isPySpace = r2 :=
    List.takeWhile_append_dropWhile isPySpace r2
  have hw : ∀ x ∈ r2.takeWhile isPySpace, isPySpace x = true ∧ x ≠ '\n' := by
    intro x hx
    refine ⟨List.mem_takeWhile_imp hx, ?_⟩
    intro h
    subst h
    exact (noNlInRun_eq r2).mp hno hx
  rw [← hsplit, cbScan_push _ two [] _ hw]
  rcases hdw : r2.dropWhile isPySpace with _ | ⟨e, t2⟩
  · rw [cbScan]
    simp
  · have he : isPySpace e = false :=
      dropWhile_head_false isPySpace r2 e (by rw [hdw]; rfl)
    have hne : ¬ e = '\n' := by
      intro h
      rw [h] at he
      exact absurd he (by decide)
    rw [cbScan, if_neg hne, if_neg (by rw [he]; exact Bool.false_ne_true)]
    have ht2len : t2.length ≤ n := by
      have h1 : (r2.dropWhile isPySpace).length ≤ r2.length :=
        (List.dropWhile_suffix isPySpace).sublist.length_le
      rw [hdw] at h1
      simp only [List.length_cons] at h1
      omega
    have ht2cb : cbNormal t2 = true := by
      have h1 : cbNormal (r2.takeWhile isPySpace ++ (e :: t2)) = true := by
        rw [← hdw, hsplit]
        exact hcb
      rw [cbNormal_skip (fun x hx => (hw x hx).2), cbNormal_cons_ne hne] at h1
      exact h1
    rw [ihn t2 ht2len ht2cb]
    simp [List.append_assoc]

/-- On a normal string the blank-line collapse is the identity. -/
theorem cbScan_fix_aux :
    ∀ n (l : List Char), l.length ≤ n → cbNormal l = true → cbScan l none = l := by
  intro n
  induction n with
  | zero =>
    intro l hl _
    rw [List.length_eq_zero.mp (Nat.le_zero.mp hl)]
    rfl
  | succ n ih =>
    intro l hl hcb
    cases l with
    | nil => rfl
    | cons c rest =>
      by_cases hc : c = '\n'
      · subst hc
        rw [cbNormal, if_pos rfl, Bool.and_eq_true] at hcb
        obtain ⟨hguard, hrest⟩ := hcb
        by_cases hh : rest.head? = some '\n'
        · obtain ⟨r2, hr2⟩ : ∃ r2, rest = '\n' :: r2 := by
            cases hrc : rest with
            | nil => rw [hrc] at hh; cases hh
            | cons d r2 =>
              rw [hrc] at hh
              exact ⟨r2, by rw [Option.some.inj hh]⟩
          subst hr2
          rw [if_pos (show ('\n' :: r2).head? = some '\n' from rfl),
            List.tail_cons] at hguard
          have hr2cb : cbNormal r2 = true := by
            rw [cbNormal, Bool.and_eq_true] at hrest
            exact hrest.2
          have hlen2 : r2.length ≤ n := by
            simp only [List.length_cons] at hl
            omega
          rw [cbScan, if_pos rfl, cbScan, if_pos rfl]
          rw [cbScan_run_fix n ih r2 true hguard hr2cb hlen2]
          rfl
        · rw [if_neg hh] at hguard
          have hlen2 : rest.length ≤ n := by
            simp only [List.length_cons] at hl
            omega
          rw [cbScan, if_pos rfl]
          rw [cbScan_run_fix n ih rest false hguard hrest hlen2]
          rfl
      · rw [cbScan, if_neg hc]
        rw [cbNormal_cons_ne hc] at hcb
        have hlen2 : rest.length ≤ n := by
          simp only [List.length_cons] at hl
          omega
        rw [ih rest hlen2 hcb]

theorem cbScan_fix {l : List Char} (hcb : cbNormal l = true) :
    cbScan l none = l :=
  cbScan_fix_aux l.length l (le_refl _) hcb

theorem mem_takeWhile_append {p : Char → Bool} {x : Char} :
    ∀ {a : List Char} (b : List Char), x ∈ a.takeWhile p → x ∈ (a ++ b).takeWhile p := by
  intro a
  induction a with
  | nil => intro b h; cases h
  | cons c a2 ih =>
    intro b h
    by_cases hc : p c = true
    · rw [List.takeWhile_cons_of_pos hc] at h
      rw [List.cons_append, List.takeWhile_cons_of_pos hc]
      rcases List.mem_cons.mp h with rfl | h2
      · exact List.mem_cons_self _ _
      · exact List.mem_cons_of_mem _ (ih b h2)
    · rw [List.takeWhile_cons_of_neg hc] at h
      cases h

theorem noNlInRun_append_left {a b : List Char}
    (h : noNlInRun (a ++ b) = true) : noNlInRun a = true := by
  rw [noNlInRun_eq] at h ⊢
  intro hmem
  exact h (mem_takeWhile_append b hmem)

theorem cbNormal_tail {c : Char} {rest : List Char}
    (h : cbNormal (c :: rest) = true) : cbNormal rest = true := by
  rw [cbNormal, Bool.and_eq_true] at h
  exact h.2

theorem cbNormal_suffix {l₂ l₁ : List Char} (h : cbNormal l₁ = true)
    (hs : l₂ <:+ l₁) : cbNormal l₂ = true := by
  obtain ⟨u, rfl⟩ := hs
  induction u with
  | nil => exact h
  | cons a u2 ih => exact ih (cbNormal_tail h)

theorem cbNormal_dropEnd_aux :
    ∀ n (u v : List Char), u.length ≤ n → cbNormal (u ++ v) = true →
      (∀ c ∈ v, isPySpace c = true) → cbNormal u = true := by
  intro n
  induction n with
  | zero =>
    intro u v hu _ _
    rw [List.length_eq_zero.mp (Nat.le_zero.mp hu)]
    rfl
  | succ n ih =>
    intro u v hu hbig hv
    cases u with
    | nil => rfl
    | cons c u2 =>
      rw [List.cons_append, cbNormal, Bool.and_eq_true] at hbig
      obtain ⟨gbig, hrestbig⟩ := hbig
      have hu2 : u2.length ≤ n := by
        simp only [List.length_cons] at hu
        omega
      have hrec : cbNormal u2 = true := ih u2 v hu2 hrestbig hv
      rw [cbNormal, Bool.and_eq_true]
      refine ⟨?_, hrec⟩
      by_cases hc : c = '\n'
      · rw [if_pos hc]
        rw [if_pos hc] at gbig
        cases u2 with
        | nil =>
          rw [show (([] : List Char)).head? = none from rfl]
          rw [if_neg (by intro h; cases h)]
          rfl
        | cons d u3 =>
          by_cases hd : d = '\n'
          · subst hd
            rw [if_pos (show ('\n' :: u3).head? = some '\n' from rfl),
              List.tail_cons]
            rw [List.cons_append,
              if_pos (show ('\n' :: (u3 ++ v)).head? = some '\n' from rfl),
              List.tail_cons] at gbig
            exact noNlInRun_append_left gbig
          · have hneq : ¬ ((d :: u3).head? = some '\n') := by
              intro h
              exact hd (Option.some.inj h)
            have hneq2 : ¬ ((d :: (u3 ++ v)).head? = some '\n') := by
              intro h
              exact hd (Option.some.inj h)
            rw [if_neg hneq]
            simp only [List.cons_append] at gbig
            rw [if_neg hneq2] at gbig
            have gbig' : noNlInRun ((d :: u3) ++ v) = true := by
              rw [List.cons_append]
              exact gbig
            exact noNlInRun_append_left gbig'
      · rw [if_neg hc]

theorem cbNormal_dropEnd {u v : List Char} (hbig : cbNormal (u ++ v) = true)
    (hv : ∀ c ∈ v, isPySpace c = true) : cbNormal u = true :=
  cbNormal_dropEnd_aux u.length u v (le_refl _) hbig hv

theorem dropEndSpace_decomp (l : List Char) :
    l = dropEndSpace l ++ (l.reverse.takeWhile isPySpace).reverse ∧
    ∀ c ∈ (l.reverse.takeWhile isPySpace).reverse, isPySpace c = true := by
  constructor
  · have h := congrArg List.reverse
      (List.takeWhile_append_dropWhile (p := isPySpace) (l := l.reverse))
    rw [List.reverse_append, List.reverse_reverse] at h
    rw [dropEndSpace]
    exact h.symm
  · intro c hc
    exact List.mem_takeWhile_imp (List.mem_reverse.mp hc)

theorem dropEndSpace_part (l : List Char) : dropEndSpace l <+: l :=
  ⟨(l.reverse.takeWhile isPySpace).reverse, ((dropEndSpace_decomp l).1).symm⟩

theorem pyStrip_subset {l : List Char} {x : Char} (h : x ∈ pyStrip l) : x ∈ l := by
  rw [pyStrip] at h
  have h1 : x ∈ l.dropWhile isPySpace :=
    (dropEndSpace_part _).sublist.subset h
  exact (List.dropWhile_suffix _).sublist.subset h1

theorem chain_pyStrip {l : List Char} (h : List.Chain' spaceRunOk l) :
    List.Chain' spaceRunOk (pyStrip l) :=
  chain_of_isPre (h.suffix (List.dropWhile_suffix _)) (dropEndSpace_part _)

theorem cbNormal_pyStrip {l : List Char} (h : cbNormal l = true) :
    cbNormal (pyStrip l) = true := by
  have h1 : cbNormal (l.dropWhile isPySpace) = true :=
    cbNormal_suffix h (List.dropWhile_suffix _)
  obtain ⟨hv, hvs⟩ := dropEndSpace_decomp (l.dropWhile isPySpace)
  rw [hv] at h1
  exact cbNormal_dropEnd h1 hvs

theorem pyStrip_head (l : List Char) :
    ∀ x, (pyStrip l).head? = some x → isPySpace x = false := by
  intro x hx
  rw [pyStrip] at hx
  obtain ⟨hv, _⟩ := dropEndSpace_decomp (l.dropWhile isPySpace)
  have hx2 : (l.dropWhile isPySpace).head? = some x := by
    rw [hv]
    cases hde : dropEndSpace (l.dropWhile isPySpace) with
    | nil => rw [hde] at hx; cases hx
    | cons a A2 =>
      rw [hde] at hx
      have hax : a = x := Option.some.inj hx
      subst hax
      rfl
  exact dropWhile_head_false isPySpace l x hx2

theorem pyStrip_last (l : List Char) :
    ∀ x, (pyStrip l).getLast? = some x → isPySpace x = false := by
  intro x hx
  rw [pyStrip, dropEndSpace, List.getLast?_reverse] at hx
  exact dropWhile_head_false isPySpace _ x hx

theorem dropWhile_eq_self_of_head {p : Char → Bool} {l : List Char}
    (h : ∀ x, l.head? = some x → p x = false) : l.dropWhile p = l := by
  cases l with
  | nil => rfl
  | cons c rest =>
    have hc : p c = false := h c rfl
    rw [List.dropWhile_cons_of_neg (by rw [hc]; exact Bool.false_ne_true)]

theorem dropEndSpace_eq_self {l : List Char}
    (h : ∀ x, l.getLast? = some x → isPySpace x = false) : dropEndSpace l = l := by
  rw [dropEndSpace, dropWhile_eq_self_of_head
    (fun x hx => h x (by rw [← List.head?_reverse]; exact hx)),
    List.reverse_reverse]

theorem pyStrip_fix {l : List Char}
    (hh : ∀ x, l.head? = some x → isPySpace x = false)
    (hl : ∀ x, l.getLast? = some x → isPySpace x = false) : pyStrip l = l := by
  rw [pyStrip, dropWhile_eq_self_of_head hh, dropEndSpace_eq_self hl]

/-- The core of C8: the `norm` pipeline is idempotent on character lists. -/
theorem normChars_idem (l : List Char) : normChars (normChars l) = normChars l := by
  have hz : normChars l =
      pyStrip (cbScan (stScan (subCR l) false) none) := rfl
  set y2 := stScan (subCR l) false with hy2
  set y3 := cbScan y2 none with hy3
  have hnoCR2 : '\r' ∉ y2 := by
    intro h
    rcases stScan_mem h with h1 | h1
    · exact subCR_not_mem_cr l h1
    · cases h1
  have hnoCR3 : '\r' ∉ y3 := by
    intro h
    rcases cbScan_mem y2 none '\r' h with h1 | h1 | ⟨p, hp, _⟩
    · exact hnoCR2 h1
    · cases h1
    · cases hp
  have hnoCRz : '\r' ∉ normChars l := by
    rw [hz]
    intro h
    exact hnoCR3 (pyStrip_subset h)
  have hnoTab3 : '\t' ∉ y3 := by
    intro h
    rcases cbScan_mem y2 none '\t' h with h1 | h1 | ⟨p, hp, _⟩
    · exact stScan_not_mem_tab (subCR l) false h1
    · cases h1
    · cases hp
  have hnoTabz : '\t' ∉ normChars l := by
    rw [hz]
    intro h
    exact hnoTab3 (pyStrip_subset h)
  have hchain3 : List.Chain' spaceRunOk y3 :=
    cbScan_chain y2 none (stScan_chain (subCR l) false)
  have hchainz : List.Chain' spaceRunOk (normChars l) := by
    rw [hz]
    exact chain_pyStrip hchain3
  have hcb3 : cbNormal y3 = true :=
    cbScan_normal y2 none (fun p hp => by cases hp)
  have hcbz : cbNormal (normChars l) = true := by
    rw [hz]
    exact cbNormal_pyStrip hcb3
  have hheadz : ∀ x, (normChars l).head? = some x → isPySpace x = false := by
    rw [hz]
    exact pyStrip_head y3
  have hlastz : ∀ x, (normChars l).getLast? = some x → isPySpace x = false := by
    rw [hz]
    exact pyStrip_last y3
  show pyStrip (cbScan (stScan (subCR (normChars l)) false) none) = normChars l
  rw [subCR_eq_self hnoCRz]
  rw [(stScan_fix hnoTabz hchainz).1]
  rw [cbScan_fix hcbz]
  exact pyStrip_fix hheadz hlastz

/-- C8: `norm` is idempotent, and on a `None` input it returns the empty
string. -/
theorem norm_idempotent (s : String) :
    norm (norm s) = norm s ∧ normOpt none = "" := by
  constructor
  · show (⟨normChars (norm s).data⟩ : String) = norm s
    have hdata : (norm s).data = normChars s.data := rfl
    rw [hdata, normChars_idem]
    rfl
  · rfl

end MrtsBot
